import Mathlib

/-!
ADSR envelope generator (`src/dsp/adsr.hxx`).

A shallow embedding of the `ADSR` class of openAV-Fabla and theorems about it.

Modelling conventions.

* The C++ `float` fields are modelled by rationals (`ℚ`).  The first group of
  definitions (`construct`, `release`, `phase`, `process`, ...) evaluates every
  formula of the source exactly, without rounding; it carries the statements
  about flags, frames and assignments and about the formulas as written.  The
  second group (`construct32`, `release32`, `phase32`, `process32`, ...)
  evaluates the same formulas with every operation rounded to binary32 and
  carries the statements whose truth depends on the arithmetic of the values.
  Both are instances of one definition with the rounding as a parameter
  (`processR id = process`, `processR round32 = process32`).
* Division in `ℚ` is total (`x / 0 = 0`); it agrees with the source division
  whenever the divisor is non-zero, and `processBranch` below records which
  division a call executes so that the divisor can be shown to be strictly
  positive.
* `int` arguments (`srate`, `nframes`) are modelled by `Int`.
* Every member function that mutates the object becomes a function
  `ADSR → ADSR`; `process`, which also returns a value, returns the pair of the
  new state and the returned value.
-/

/-- The private data members of `class ADSR`, in the order of the source. -/
structure ADSR where
  sr : Int
  enableSmoothing : Bool
  w : ℚ
  a : ℚ
  b : ℚ
  g1 : ℚ
  g2 : ℚ
  att : ℚ
  dec : ℚ
  rel : ℚ
  released : Bool
  sus : ℚ
  finish : Bool
  progress : ℚ
deriving DecidableEq, Repr

namespace ADSR

/-- The literal `1e-20f` used by the smoothing filter against denormals. -/
def eps : ℚ := 1 / 10 ^ 20

/-- The constructor `ADSR::ADSR(srate, attackMS, decayMS, sustain01, releaseMS)`. -/
def construct (srate : Int) (attackMS decayMS sustain01 releaseMS : ℚ) : ADSR :=
  let sr : Int := srate
  let att : ℚ := attackMS * sr
  let dec : ℚ := decayMS * sr
  let sus : ℚ := sustain01
  let rel : ℚ := releaseMS * sr
  let a : ℚ := 7 / 100
  { sr := sr
    att := att
    dec := dec
    sus := sus
    rel := rel
    finish := true
    w := 10 / ((srate : ℚ) * 1)
    a := a
    b := 1 / (1 - a)
    g1 := 0
    g2 := 0
    progress := att + dec + rel
    released := true
    enableSmoothing := false }

/-- The setter `void attack(float a)`. -/
def attack (s : ADSR) (a : ℚ) : ADSR :=
  { s with att := (a + 2 / 1000) * s.sr }

/-- The setter `void decay(float d)`. -/
def decay (s : ADSR) (d : ℚ) : ADSR :=
  { s with dec := (d + 1 / 100) * s.sr }

/-- The setter `void sustain(float s)`. -/
def sustain (s : ADSR) (v : ℚ) : ADSR :=
  { s with sus := v }

/-- The setter `void release(float r)` (the overload taking a duration). -/
def release_float (s : ADSR) (r : ℚ) : ADSR :=
  { s with rel := r * s.sr }

/-- The event `void trigger()`. -/
def trigger (s : ADSR) : ADSR :=
  { s with progress := 0, released := false, finish := false }

/-- The event `void release()` (the overload without argument). -/
def release (s : ADSR) : ADSR :=
  { s with progress := s.att + s.dec, released := true }

/-- The query `bool is_released()`. -/
def is_released (s : ADSR) : Bool := s.released

/-- The query `bool finished()`. -/
def finished (s : ADSR) : Bool := s.finish

/-- The setter `void setSmoothing(bool s)`. -/
def setSmoothing (s : ADSR) (v : Bool) : ADSR :=
  { s with enableSmoothing := v }

/-- The branch cascade of `process` on the already advanced `progress`:
the raw `output` and the new value of `finish`. -/
def phase (s : ADSR) (progress : ℚ) : ℚ × Bool :=
  if progress < s.att then
    (progress / s.att, s.finish)
  else if progress < s.att + s.dec then
    (1 - (1 - s.sus) * ((progress - s.att) / s.dec), s.finish)
  else if s.released = true ∧ progress > s.att + s.dec ∧ progress < s.att + s.dec + s.rel then
    (s.sus - (s.sus * (progress - (s.att + s.dec)) / s.rel), s.finish)
  else if s.released = false then
    (s.sus, s.finish)
  else
    (0, true)

/-- The member `float process(int nframes)`: the state after the call and the
returned value. -/
def process (s : ADSR) (nframes : Int) : ADSR × ℚ :=
  let progress : ℚ := s.progress + (nframes : ℚ)
  let r := phase s progress
  let output : ℚ := r.1
  let s1 : ADSR := { s with progress := progress, finish := r.2 }
  if s.enableSmoothing = true then
    let g1 : ℚ := s1.g1 + s1.w * (output - s1.g1 - s1.a * s1.g2 - eps)
    let g2 : ℚ := s1.g2 + s1.w * (s1.b * g1 - s1.g2 + eps)
    ({ s1 with g1 := g1, g2 := g2 }, g2)
  else
    (s1, output)

/-- The tags of the five arms of the cascade in `process`. -/
inductive Branch where
  | attack
  | decay
  | release
  | sustain
  | finish
deriving DecidableEq, Repr

/-- The ordered rules of the specification for the raw envelope value at
progress `p` (rule 3 has no lower bound on `p`). -/
def specOutput (att dec rel sus : ℚ) (released : Bool) (p : ℚ) : ℚ :=
  if p < att then p / att
  else if p < att + dec then 1 - (1 - sus) * (p - att) / dec
  else if released = true ∧ p < att + dec + rel then sus - sus * (p - att - dec) / rel
  else if released = false then sus
  else 0

/-- The operations a caller can apply to a generator. -/
inductive Op where
  | attack (a : ℚ)
  | decay (d : ℚ)
  | sustain (v : ℚ)
  | release_float (r : ℚ)
  | trigger
  | release
  | setSmoothing (v : Bool)
  | process (nframes : Int)
deriving DecidableEq, Repr

/-- The state after one operation. -/
def step (s : ADSR) : Op → ADSR
  | Op.attack a => s.attack a
  | Op.decay d => s.decay d
  | Op.sustain v => s.sustain v
  | Op.release_float r => s.release_float r
  | Op.trigger => s.trigger
  | Op.release => s.release
  | Op.setSmoothing v => s.setSmoothing v
  | Op.process n => (s.process n).1

/-- The state after a sequence of operations, applied left to right. -/
def run (s : ADSR) (ops : List Op) : ADSR :=
  ops.foldl step s

/-- The generator of the scenario of the specification: 48 kHz, attack 0.01,
decay 0.02, sustain 0.5, release 0.03, so 480, 960 and 1440 samples. -/
def demo : ADSR := construct 48000 (1 / 100) (2 / 100) (1 / 2) (3 / 100)

/-- The invariant `finished ⇒ released` of the data model. -/
def FinishedImpliesReleased (s : ADSR) : Prop :=
  finished s = true → is_released s = true

/-- One step of the smoothing filter of `process`, as the two assignments
`g1 += w * (output - g1 - a * g2 - e)` and `g2 += w * (b * g1 - g2 + e)` of the
source (the second reads the updated `g1`), with the guard constant `e` as a
parameter: the new pair `(g1, g2)`. -/
def filterStep (w a b e output g1 g2 : ℚ) : ℚ × ℚ :=
  let g1n : ℚ := g1 + w * (output - g1 - a * g2 - e)
  let g2n : ℚ := g2 + w * (b * g1n - g2 + e)
  (g1n, g2n)

/-- The operations `process(n)` for the frame counts of a list, in order. -/
def processOps (ns : List Int) : List Op :=
  ns.map Op.process

end ADSR

/-!
Binary32 arithmetic.

The fields of the class are C++ `float`s.  The definitions above evaluate the
formulas of the source exactly; the definitions below evaluate the same
formulas with the result of every arithmetic operation, and of every
conversion of an `int` to `float`, rounded to binary32 (round to nearest, ties
to even, 24-bit significand, gradual underflow).  Overflow to infinity is not
represented: `round32` returns the finite value an unbounded exponent range
would give, and the statements about the binary32 model keep their operands far
below the overflow threshold `2^128`.
-/

namespace F32

/-- The power of two `2^e` as a rational, computed with natural-number powers. -/
def pow2 (e : Int) : ℚ :=
  if 0 ≤ e then ((2 ^ e.toNat : Nat) : ℚ) else 1 / ((2 ^ (-e).toNat : Nat) : ℚ)

/-- Binary logarithm by repeated halving; `fuel` bounds the number of halvings. -/
def log2Fuel : Nat → Nat → Nat
  | 0, _ => 0
  | fuel + 1, n => if 2 ≤ n then log2Fuel fuel (n / 2) + 1 else 0

/-- The integer part of the binary logarithm of a natural number (0 for 0). -/
def nlog2 (n : Nat) : Nat := log2Fuel n n

/-- The binade of a positive rational: the `e` with `2^e ≤ x < 2^(e+1)`. -/
def ilog2 (x : ℚ) : Int :=
  let k : Int := (nlog2 x.num.natAbs : Int) - (nlog2 x.den : Int)
  if pow2 k ≤ x then k else k - 1

/-- Rounding of a rational to the nearest integer, ties to the even one. -/
def rne (r : ℚ) : Int :=
  let z : Int := ⌊r⌋
  let f : ℚ := r - (z : ℚ)
  if f < 1 / 2 then z
  else if 1 / 2 < f then z + 1
  else if z % 2 = 0 then z else z + 1

/-- The spacing of the binary32 values around a positive `x`: `2^(e-23)` for
the binade `e` of `x`, and the subnormal spacing `2^-149` below `2^-126`. -/
def quantum (x : ℚ) : ℚ := pow2 (max (ilog2 x) (-126) - 23)

/-- Rounding of a positive rational to binary32. -/
def roundPos (x : ℚ) : ℚ := (rne (x / quantum x) : ℚ) * quantum x

/-- Rounding of a rational to the nearest binary32 value, ties to even. -/
def round32 (x : ℚ) : ℚ :=
  if x = 0 then 0 else if x < 0 then -(roundPos (-x)) else roundPos x

end F32

namespace ADSR

/-- The constructor of the source with the rounding `rd` applied to the result
of each arithmetic operation and to each converted `int` and decimal literal
(`0.07f`); the literals `10.0f`, `1.0f` and `0.f` are exact. -/
def constructR (rd : ℚ → ℚ) (srate : Int) (attackMS decayMS sustain01 releaseMS : ℚ) : ADSR :=
  let sr : Int := srate
  let att : ℚ := rd (attackMS * rd (sr : ℚ))
  let dec : ℚ := rd (decayMS * rd (sr : ℚ))
  let sus : ℚ := sustain01
  let rel : ℚ := rd (releaseMS * rd (sr : ℚ))
  let a : ℚ := rd (7 / 100)
  { sr := sr
    att := att
    dec := dec
    sus := sus
    rel := rel
    finish := true
    w := rd (10 / rd (((srate * 1 : Int)) : ℚ))
    a := a
    b := rd (1 / rd (1 - a))
    g1 := 0
    g2 := 0
    progress := rd (rd (att + dec) + rel)
    released := true
    enableSmoothing := false }

/-- The event `void release()` with the sum `att + dec` rounded by `rd`. -/
def releaseR (rd : ℚ → ℚ) (s : ADSR) : ADSR :=
  { s with progress := rd (s.att + s.dec), released := true }

/-- The branch cascade of `process` with every operation rounded by `rd`: the
sums `att + dec` and `att + dec + rel` of the conditions, the quotient of the
attack arm, the difference, quotient, product and difference of the decay arm,
and the difference, product, quotient and difference of the release arm, in the
order in which the source evaluates them. -/
def phaseR (rd : ℚ → ℚ) (s : ADSR) (progress : ℚ) : ℚ × Bool :=
  if progress < s.att then
    (rd (progress / s.att), s.finish)
  else if progress < rd (s.att + s.dec) then
    (rd (1 - rd (rd (1 - s.sus) * rd (rd (progress - s.att) / s.dec))), s.finish)
  else if s.released = true ∧ progress > rd (s.att + s.dec) ∧
      progress < rd (rd (s.att + s.dec) + s.rel) then
    (rd (s.sus - rd (rd (s.sus * rd (progress - rd (s.att + s.dec))) / s.rel)), s.finish)
  else if s.released = false then
    (s.sus, s.finish)
  else
    (0, true)

/-- The two filter assignments of `process` with every operation rounded by
`rd`: `output - g1 - a * g2 - e` is evaluated from left to right with the
product first, then multiplied by `w` and added to `g1`; likewise for `g2`,
which reads the updated `g1`. -/
def filterStepR (rd : ℚ → ℚ) (w a b e output g1 g2 : ℚ) : ℚ × ℚ :=
  let g1n : ℚ := rd (g1 + rd (w * rd (rd (rd (output - g1) - rd (a * g2)) - e)))
  let g2n : ℚ := rd (g2 + rd (w * rd (rd (rd (b * g1n) - g2) + e)))
  (g1n, g2n)

/-- The member `float process(int nframes)` with every operation rounded by
`rd`; `nframes` is converted to `float` before it is added to `progress`. -/
def processR (rd : ℚ → ℚ) (s : ADSR) (nframes : Int) : ADSR × ℚ :=
  let progress : ℚ := rd (s.progress + rd (nframes : ℚ))
  let r := phaseR rd s progress
  let output : ℚ := r.1
  let s1 : ADSR := { s with progress := progress, finish := r.2 }
  if s.enableSmoothing = true then
    let g := filterStepR rd s1.w s1.a s1.b (rd eps) output s1.g1 s1.g2
    ({ s1 with g1 := g.1, g2 := g.2 }, g.2)
  else
    (s1, output)

/-- The constructor in binary32 arithmetic. -/
def construct32 (srate : Int) (attackMS decayMS sustain01 releaseMS : ℚ) : ADSR :=
  constructR F32.round32 srate attackMS decayMS sustain01 releaseMS

/-- The event `release()` in binary32 arithmetic. -/
def release32 (s : ADSR) : ADSR := releaseR F32.round32 s

/-- The branch cascade of `process` in binary32 arithmetic. -/
def phase32 (s : ADSR) (progress : ℚ) : ℚ × Bool := phaseR F32.round32 s progress

/-- The member `process(nframes)` in binary32 arithmetic. -/
def process32 (s : ADSR) (nframes : Int) : ADSR × ℚ := processR F32.round32 s nframes

/-- Which arm of the cascade `process(nframes)` executes in binary32
arithmetic: the conditions of `phaseR`, in the same order. -/
def processBranch32 (s : ADSR) (nframes : Int) : Branch :=
  let progress : ℚ := F32.round32 (s.progress + F32.round32 (nframes : ℚ))
  if progress < s.att then Branch.attack
  else if progress < F32.round32 (s.att + s.dec) then Branch.decay
  else if s.released = true ∧ progress > F32.round32 (s.att + s.dec) ∧
      progress < F32.round32 (F32.round32 (s.att + s.dec) + s.rel) then
    Branch.release
  else if s.released = false then Branch.sustain
  else Branch.finish

/-- The operations of the binary32 model: the two events, the smoothing switch,
the sustain setter (a plain assignment) and `process`.  The duration setters,
which compute in double precision, are not part of it. -/
inductive Op32 where
  | sustain (v : ℚ)
  | trigger
  | release
  | setSmoothing (v : Bool)
  | process (nframes : Int)
deriving DecidableEq, Repr

/-- The state after one operation in binary32 arithmetic; `trigger()`,
`sustain` and `setSmoothing` only assign. -/
def step32 (s : ADSR) : Op32 → ADSR
  | Op32.sustain v => s.sustain v
  | Op32.trigger => s.trigger
  | Op32.release => release32 s
  | Op32.setSmoothing v => s.setSmoothing v
  | Op32.process n => (process32 s n).1

/-- The state after a sequence of operations in binary32 arithmetic. -/
def run32 (s : ADSR) (ops : List Op32) : ADSR := ops.foldl step32 s

/-- A state with the filter memory `(g1, g2)` replaced. -/
def withFilter (s : ADSR) (g1 g2 : ℚ) : ADSR :=
  { s with g1 := g1, g2 := g2 }

/-- The scenario generator in binary32 arithmetic: 48 kHz, the `float`
arguments `0.01f`, `0.02f`, `0.5f`, `0.03f`; it stores 480, 960 and 1440
samples. -/
def demo32 : ADSR :=
  construct32 48000 (F32.round32 (1 / 100)) (F32.round32 (2 / 100)) (1 / 2)
    (F32.round32 (3 / 100))

end ADSR

open ADSR F32

/-! ## Unfolding lemmas shared by the proofs -/

theorem process_progress (s : ADSR) (n : Int) :
    (process s n).1.progress = s.progress + (n : ℚ) := by
  unfold process
  split <;> rfl

theorem process_released (s : ADSR) (n : Int) :
    (process s n).1.released = s.released := by
  unfold process
  split <;> rfl

theorem process_finish (s : ADSR) (n : Int) :
    (process s n).1.finish = (phase s (s.progress + (n : ℚ))).2 := by
  unfold process
  split <;> rfl

theorem process_params (s : ADSR) (n : Int) :
    (process s n).1.att = s.att ∧ (process s n).1.dec = s.dec ∧
      (process s n).1.rel = s.rel ∧ (process s n).1.sus = s.sus ∧
      (process s n).1.enableSmoothing = s.enableSmoothing ∧
      (process s n).1.sr = s.sr ∧ (process s n).1.w = s.w ∧
      (process s n).1.a = s.a ∧ (process s n).1.b = s.b := by
  unfold process
  split <;> simp

theorem process_raw (s : ADSR) (n : Int) (h : s.enableSmoothing = false) :
    process s n =
      ({ s with progress := s.progress + (n : ℚ),
                finish := (phase s (s.progress + (n : ℚ))).2 },
        (phase s (s.progress + (n : ℚ))).1) := by
  unfold process
  simp [h]

/-- Away from the single point `released ∧ p = att + dec ∧ 0 < rel`, the raw
output of the cascade is the value of the specification's ordered rules. -/
theorem phase_eq_specOutput (s : ADSR) (p : ℚ)
    (hb : ¬ (s.released = true ∧ p = s.att + s.dec ∧ 0 < s.rel)) :
    (phase s p).1 = specOutput s.att s.dec s.rel s.sus s.released p := by
  unfold phase specOutput
  by_cases h1 : p < s.att
  · simp [h1]
  · by_cases h2 : p < s.att + s.dec
    · simp [h1, h2, mul_div_assoc]
    · simp only [h1, h2, if_false]
      by_cases hr : s.released = true
      · by_cases h3 : p < s.att + s.dec + s.rel
        · have h4 : p > s.att + s.dec := by
            rcases lt_or_eq_of_le (not_lt.mp h2) with h | h
            · exact h
            · exact absurd ⟨hr, h.symm, by linarith⟩ hb
          simp only [hr, h3, h4, and_self, if_true]
          congr 2
          ring
        · simp [hr, h3]
      · simp [hr]

/-- The flag `finish` is raised by the cascade only when the note is released
and either the release window has elapsed or `p` sits exactly on `att + dec`. -/
theorem phase_finish_cases (s : ADSR) (p : ℚ) (hf : s.finish = false)
    (h : (phase s p).2 = true) :
    s.released = true ∧ (p = s.att + s.dec ∨ s.att + s.dec + s.rel ≤ p) := by
  unfold phase at h
  by_cases h1 : p < s.att
  · simp [h1, hf] at h
  · by_cases h2 : p < s.att + s.dec
    · simp [h1, h2, hf] at h
    · by_cases hr : s.released = true
      · refine ⟨hr, ?_⟩
        by_cases h3 : p < s.att + s.dec + s.rel
        · left
          by_contra hne
          have h4 : p > s.att + s.dec :=
            lt_of_le_of_ne (not_lt.mp h2) (fun e => hne e.symm)
          simp [h1, h2, hr, h3, h4, hf] at h
        · right
          exact not_lt.mp h3
      · have hr2 : s.released = false := by simpa using hr
        simp [h1, h2, hr2, hf] at h

/-! ## C1 -/

/-- C1 (evaluation at the failing input). After `trigger()` and `release()` on
the scenario generator (smoothing off, att = 480, dec = 960, rel = 1440,
sus = 1/2), `process(0)` is evaluated at `p = att + dec` with the note released:
the specification's ordered rules give `sus = 1/2`, whereas the code returns 0
and raises `finish`. -/
theorem process_release_boundary_returns_zero :
    (release (trigger demo)).enableSmoothing = false ∧
      (release (trigger demo)).released = true ∧
      (release (trigger demo)).progress + ((0 : Int) : ℚ)
        = (release (trigger demo)).att + (release (trigger demo)).dec ∧
      0 < (release (trigger demo)).rel ∧
      specOutput (release (trigger demo)).att (release (trigger demo)).dec
        (release (trigger demo)).rel (release (trigger demo)).sus
        (release (trigger demo)).released
        ((release (trigger demo)).progress + ((0 : Int) : ℚ)) = 1 / 2 ∧
      (process (release (trigger demo)) 0).2 = 0 := by
  norm_num [demo, construct, process, phase, release, trigger, specOutput]

/-- Everywhere else the claim of C1 holds: with smoothing disabled,
`process(nframes)` returns the value of the specification's rules at
`p = progress + nframes`, unless the note is released, `p = att + dec` and
`rel > 0`. -/
theorem process_eq_specOutput_off_boundary (s : ADSR) (n : Int)
    (hs : s.enableSmoothing = false)
    (hb : ¬ (s.released = true ∧ s.progress + (n : ℚ) = s.att + s.dec ∧ 0 < s.rel)) :
    (process s n).2
      = specOutput s.att s.dec s.rel s.sus s.released (s.progress + (n : ℚ)) := by
  rw [process_raw s n hs]
  exact phase_eq_specOutput s _ hb

/-! ## C2 -/

/-- C2. `trigger()` sets `progress = 0`, `released = false`, `finish = false`
and leaves every other field (sample rate, phase lengths, sustain level,
smoothing flag, filter coefficients and filter state) unchanged; calling it
twice is the same as calling it once. -/
theorem trigger_resets_cycle_only (s : ADSR) :
    (trigger s).progress = 0 ∧ (trigger s).released = false ∧
      (trigger s).finish = false ∧ finished (trigger s) = false ∧
      is_released (trigger s) = false ∧
      (trigger s).att = s.att ∧ (trigger s).dec = s.dec ∧ (trigger s).rel = s.rel ∧
      (trigger s).sus = s.sus ∧ (trigger s).enableSmoothing = s.enableSmoothing ∧
      (trigger s).w = s.w ∧ (trigger s).a = s.a ∧ (trigger s).b = s.b ∧
      (trigger s).g1 = s.g1 ∧ (trigger s).g2 = s.g2 ∧ (trigger s).sr = s.sr ∧
      trigger (trigger s) = trigger s := by
  simp [trigger, finished, is_released]

/-! ## C4 -/

/-- C4 (evaluation at the failing input). After `trigger()` and `release()` on
the scenario generator `finished()` is false; `process(0)` then raises
`finished()` although the new progress, 1440, is below
`att + dec + rel = 2880`: the release window has not elapsed. -/
theorem process_finishes_inside_release_window :
    finished (release (trigger demo)) = false ∧
      finished (process (release (trigger demo)) 0).1 = true ∧
      is_released (process (release (trigger demo)) 0).1 = true ∧
      (process (release (trigger demo)) 0).1.progress = 1440 ∧
      (release (trigger demo)).att + (release (trigger demo)).dec
        + (release (trigger demo)).rel = 2880 ∧
      ¬ ((release (trigger demo)).att + (release (trigger demo)).dec
          + (release (trigger demo)).rel
            ≤ (process (release (trigger demo)) 0).1.progress) := by
  norm_num [demo, construct, process, phase, release, trigger, finished, is_released]

/-- Everywhere else the claim of C4 holds: if `process(nframes)` turns
`finished()` from false to true, the note is released and the new progress is
either at least `att + dec + rel` or exactly `att + dec`. -/
theorem process_finish_cases (s : ADSR) (n : Int) (hf : finished s = false)
    (h : finished (process s n).1 = true) :
    is_released (process s n).1 = true ∧
      ((process s n).1.progress = s.att + s.dec ∨
        s.att + s.dec + s.rel ≤ (process s n).1.progress) := by
  have h2 : (phase s (s.progress + (n : ℚ))).2 = true := by
    rw [← process_finish]; exact h
  have := phase_finish_cases s _ hf h2
  simpa [is_released, process_released, process_progress] using this

/-! ## C5 -/

theorem phase_finish_or (s : ADSR) (p : ℚ) :
    (phase s p).2 = s.finish ∨ ((phase s p).2 = true ∧ s.released = true) := by
  unfold phase
  split_ifs with h1 h2 h3 h4
  · exact Or.inl rfl
  · exact Or.inl rfl
  · exact Or.inl rfl
  · exact Or.inl rfl
  · exact Or.inr ⟨rfl, by simpa using h4⟩

theorem step_preserves_invariant (s : ADSR) (op : Op)
    (h : FinishedImpliesReleased s) : FinishedImpliesReleased (step s op) := by
  cases op with
  | attack a => exact h
  | decay d => exact h
  | sustain v => exact h
  | release_float r => exact h
  | trigger => intro hf; simp [step, trigger, finished] at hf
  | release => intro _; rfl
  | setSmoothing v => exact h
  | process n =>
    intro hf
    simp only [step, finished, is_released, process_finish, process_released] at hf ⊢
    rcases phase_finish_or s (s.progress + (n : ℚ)) with e | ⟨_, e⟩
    · exact h (by show s.finish = true; rw [← e]; exact hf)
    · exact e

/-- C5. `finished ⇒ released` holds in the constructed state, is preserved by
every operation (the four parameter setters, `trigger()`, `release()`,
`setSmoothing` and `process(n)` for any `n`), and therefore holds in every
state reached from the constructor by any sequence of operations. -/
theorem finished_implies_released_invariant :
    (∀ (srate : Int) (attackMS decayMS sustain01 releaseMS : ℚ),
        FinishedImpliesReleased (construct srate attackMS decayMS sustain01 releaseMS)) ∧
      (∀ (s : ADSR) (op : Op),
        FinishedImpliesReleased s → FinishedImpliesReleased (step s op)) ∧
      (∀ (srate : Int) (attackMS decayMS sustain01 releaseMS : ℚ) (ops : List Op),
        finished (run (construct srate attackMS decayMS sustain01 releaseMS) ops) = true →
          is_released (run (construct srate attackMS decayMS sustain01 releaseMS) ops)
            = true) := by
  have hc : ∀ (srate : Int) (attackMS decayMS sustain01 releaseMS : ℚ),
      FinishedImpliesReleased (construct srate attackMS decayMS sustain01 releaseMS) := by
    intro srate attackMS decayMS sustain01 releaseMS _
    rfl
  refine ⟨hc, step_preserves_invariant, ?_⟩
  intro srate attackMS decayMS sustain01 releaseMS ops
  have key : ∀ (l : List Op) (s : ADSR),
      FinishedImpliesReleased s → FinishedImpliesReleased (run s l) := by
    intro l
    induction l with
    | nil => intro s hs; exact hs
    | cons op tl ih =>
      intro s hs
      exact ih (step s op) (step_preserves_invariant s op hs)
  exact key ops _ (hc srate attackMS decayMS sustain01 releaseMS)

/-- Witness of C5: the scenario generator after `trigger()`, `process(1440)`,
`release()`, `process(1440)` is finished, hence released. -/
theorem finished_implies_released_invariant_witness :
    finished (run demo [Op.trigger, Op.process 1440, Op.release, Op.process 1440]) = true ∧
      is_released (run demo [Op.trigger, Op.process 1440, Op.release, Op.process 1440])
        = true :=
  ⟨by norm_num [demo, construct, run, step, process, phase, release, trigger, finished],
    finished_implies_released_invariant.2.2 48000 (1 / 100) (2 / 100) (1 / 2) (3 / 100)
      [Op.trigger, Op.process 1440, Op.release, Op.process 1440]
      (by norm_num [construct, run, step, process, phase, release, trigger, finished])⟩

/-! ## The five arms of the cascade -/

theorem phase_sustain (s : ADSR) (p : ℚ) (h1 : s.att ≤ p) (h2 : s.att + s.dec ≤ p)
    (hr : s.released = false) :
    phase s p = (s.sus, s.finish) := by
  simp [phase, not_lt.mpr h1, not_lt.mpr h2, hr]

theorem phase_finish (s : ADSR) (p : ℚ) (h1 : s.att ≤ p) (h2 : s.att + s.dec ≤ p)
    (h3 : s.att + s.dec + s.rel ≤ p) (hr : s.released = true) :
    phase s p = (0, true) := by
  simp [phase, not_lt.mpr h1, not_lt.mpr h2, not_lt.mpr h3, hr]

theorem phase_congr_finish (s : ADSR) (p q : ℚ) :
    phase { s with progress := q, finish := (phase s p).2 } p = phase s p := by
  unfold phase
  split_ifs <;> simp_all

/-! ## C7 -/

/-- C7 (counterexample). Two reachable states on which `process(0)` is not a
no-op. With smoothing enabled (zero attack and decay, sustain 1/2, after
`trigger()`), `process(0)` changes the filter state and a second `process(0)`
returns another value. With smoothing disabled and a zero-length release, after
`trigger()` and `release()` a `process(0)` changes `finished()`. -/
theorem process_zero_changes_state :
    (process (run (construct 48000 0 0 (1 / 2) (3 / 100))
        [Op.trigger, Op.setSmoothing true]) 0).1
      ≠ run (construct 48000 0 0 (1 / 2) (3 / 100)) [Op.trigger, Op.setSmoothing true] ∧
    (process (process (run (construct 48000 0 0 (1 / 2) (3 / 100))
        [Op.trigger, Op.setSmoothing true]) 0).1 0).2
      ≠ (process (run (construct 48000 0 0 (1 / 2) (3 / 100))
          [Op.trigger, Op.setSmoothing true]) 0).2 ∧
    (run (construct 48000 (1 / 100) (2 / 100) (1 / 2) 0)
        [Op.trigger, Op.release]).enableSmoothing = false ∧
    (process (run (construct 48000 (1 / 100) (2 / 100) (1 / 2) 0)
        [Op.trigger, Op.release]) 0).1
      ≠ run (construct 48000 (1 / 100) (2 / 100) (1 / 2) 0) [Op.trigger, Op.release] := by
  refine ⟨?_, ?_, ?_, ?_⟩
  · intro h
    have h1 := congrArg ADSR.g1 h
    norm_num [construct, run, step, process, phase, trigger, setSmoothing, eps] at h1
  · norm_num [construct, run, step, process, phase, trigger, setSmoothing, eps]
  · simp [construct, run, step, trigger, release]
  · intro h
    have h1 := congrArg ADSR.finish h
    norm_num [construct, run, step, process, phase, trigger, release] at h1

/-- C7 (amended). With smoothing disabled, `process(0)` leaves the progress, the
released flag, the parameters and the filter state unchanged, never lowers
`finished()`, and repeating it changes nothing more: a second `process(0)`
returns the same state and the same value as the first. -/
theorem process_zero_idempotent (s : ADSR) (hs : s.enableSmoothing = false) :
    (process s 0).1.progress = s.progress ∧
      (process s 0).1.released = s.released ∧
      (process s 0).1.g1 = s.g1 ∧ (process s 0).1.g2 = s.g2 ∧
      (process s 0).1.att = s.att ∧ (process s 0).1.dec = s.dec ∧
      (process s 0).1.rel = s.rel ∧ (process s 0).1.sus = s.sus ∧
      (process s 0).1.enableSmoothing = s.enableSmoothing ∧
      (finished s = true → finished (process s 0).1 = true) ∧
      process (process s 0).1 0 = process s 0 := by
  have hp : s.progress + ((0 : Int) : ℚ) = s.progress := by simp
  have e : process s 0
      = ({ s with progress := s.progress, finish := (phase s s.progress).2 },
          (phase s s.progress).1) := by
    rw [process_raw s 0 hs, hp]
  refine ⟨by rw [e], by rw [e], by rw [e], by rw [e], by rw [e], by rw [e], by rw [e],
    by rw [e], by rw [e], ?_, ?_⟩
  · intro hf
    rw [e]
    rcases phase_finish_or s s.progress with h | ⟨h, _⟩
    · show (phase s s.progress).2 = true
      rw [h]; exact hf
    · exact h
  · have hs2 : (process s 0).1.enableSmoothing = false := by
      rw [(process_params s 0).2.2.2.2.1]; exact hs
    rw [process_raw (process s 0).1 0 hs2, e]
    dsimp only
    simp only [Int.cast_zero, add_zero]
    rw [phase_congr_finish s s.progress s.progress]

/-- Witness of C7 (amended): the scenario generator after `trigger()` and
`release()`, which has smoothing disabled. -/
theorem process_zero_idempotent_witness :
    (release (trigger demo)).enableSmoothing = false ∧
      process (process (release (trigger demo)) 0).1 0
        = process (release (trigger demo)) 0 :=
  ⟨by simp [demo, construct, trigger, release],
    (process_zero_idempotent (release (trigger demo))
      (by simp [demo, construct, trigger, release])).2.2.2.2.2.2.2.2.2.2⟩

/-! ## C8 -/

/-- While the note is not released, a run of `process` calls keeps the flags
and the parameters. -/
theorem run_processOps_unreleased (ns : List Int) (s : ADSR)
    (hr : s.released = false) (hf : s.finish = false) :
    (run s (processOps ns)).released = false ∧ (run s (processOps ns)).finish = false ∧
      (run s (processOps ns)).att = s.att ∧ (run s (processOps ns)).dec = s.dec ∧
      (run s (processOps ns)).sus = s.sus ∧
      (run s (processOps ns)).enableSmoothing = s.enableSmoothing := by
  induction ns generalizing s with
  | nil => exact ⟨hr, hf, rfl, rfl, rfl, rfl⟩
  | cons n tl ih =>
    have hr2 : (process s n).1.released = false := by rw [process_released]; exact hr
    have hf2 : (process s n).1.finish = false := by
      rw [process_finish]
      rcases phase_finish_or s (s.progress + (n : ℚ)) with e | ⟨_, e⟩
      · rw [e]; exact hf
      · rw [hr] at e; exact absurd e (by simp)
    obtain ⟨p1, p2, _, p4, p5, _⟩ := process_params s n
    obtain ⟨i1, i2, i3, i4, i5, i6⟩ := ih (process s n).1 hr2 hf2
    have e : run s (processOps (n :: tl)) = run (process s n).1 (processOps tl) := rfl
    rw [e]
    exact ⟨i1, i2, i3.trans p1, i4.trans p2, i5.trans p4, i6.trans p5⟩

/-- C11. From the state after `trigger()`, with smoothing disabled and a
non-negative decay length, after any finite sequence of `process` calls with no
`release()` in between `finished()` and `is_released()` are false, and a further
`process(n)` whose resulting progress is at least `att + dec` returns exactly
`sus` and again leaves both flags false, however large the progress is. -/
theorem sustain_held_while_unreleased (s : ADSR) (ns : List Int) (n : Int)
    (hs : s.enableSmoothing = false) (hd : 0 ≤ s.dec) :
    finished (run (trigger s) (processOps ns)) = false ∧
      is_released (run (trigger s) (processOps ns)) = false ∧
      (s.att + s.dec ≤ (run (trigger s) (processOps ns)).progress + (n : ℚ) →
        (process (run (trigger s) (processOps ns)) n).2 = s.sus ∧
          finished (process (run (trigger s) (processOps ns)) n).1 = false ∧
          is_released (process (run (trigger s) (processOps ns)) n).1 = false) := by
  obtain ⟨i1, i2, i3, i4, i5, i6⟩ :=
    run_processOps_unreleased ns (trigger s) rfl rfl
  refine ⟨i2, i1, ?_⟩
  intro hp
  have hs2 : (run (trigger s) (processOps ns)).enableSmoothing = false := by
    rw [i6]; exact hs
  have a3 : (run (trigger s) (processOps ns)).att = s.att := i3
  have a4 : (run (trigger s) (processOps ns)).dec = s.dec := i4
  have a5 : (run (trigger s) (processOps ns)).sus = s.sus := i5
  have e := phase_sustain (run (trigger s) (processOps ns))
    ((run (trigger s) (processOps ns)).progress + (n : ℚ))
    (by rw [a3]; linarith) (by rw [a3, a4]; exact hp) i1
  refine ⟨?_, ?_, ?_⟩
  · rw [process_raw _ n hs2, e]
    exact a5
  · show (process (run (trigger s) (processOps ns)) n).1.finish = false
    rw [process_finish, e]
    exact i2
  · show (process (run (trigger s) (processOps ns)) n).1.released = false
    rw [process_released]
    exact i1

/-- Witness of C11: the scenario generator, three blocks after `trigger()` that
end at progress 100000, then one more sample. -/
theorem sustain_held_while_unreleased_witness :
    demo.enableSmoothing = false ∧ 0 ≤ demo.dec ∧
      demo.att + demo.dec
        ≤ (run (trigger demo) (processOps [480, 960, 98560])).progress + ((1 : Int) : ℚ) ∧
      (process (run (trigger demo) (processOps [480, 960, 98560])) 1).2 = demo.sus :=
  ⟨by norm_num [demo, construct], by norm_num [demo, construct],
    by norm_num [demo, construct, run, processOps, step, process, phase, trigger],
    ((sustain_held_while_unreleased demo [480, 960, 98560] 1
      (by norm_num [demo, construct]) (by norm_num [demo, construct])).2.2
      (by norm_num [demo, construct, run, processOps, step, process, phase, trigger])).1⟩

/-! ## C12 -/

/-- C12 (counterexample). On the scenario generator `sustain(2)` stores the
level 2 and `sustain(-1)` stores the level -1: neither is inside [0,1]. -/
theorem sustain_setter_does_not_clamp :
    (sustain demo 2).sus = 2 ∧ ¬ ((sustain demo 2).sus ≤ 1) ∧
      (sustain demo (-1)).sus = -1 ∧ ¬ (0 ≤ (sustain demo (-1)).sus) := by
  norm_num [sustain]

/-- C12 (amended). `sustain(v)` stores `v` itself and changes nothing else that
`process` reads, so the stored level is in [0,1] exactly when the argument
is. -/
theorem sustain_setter_stores_argument (s : ADSR) (v : ℚ) :
    (sustain s v).sus = v ∧
      ((0 ≤ (sustain s v).sus ∧ (sustain s v).sus ≤ 1) ↔ (0 ≤ v ∧ v ≤ 1)) ∧
      (sustain s v).att = s.att ∧ (sustain s v).dec = s.dec ∧
      (sustain s v).rel = s.rel ∧ (sustain s v).progress = s.progress ∧
      (sustain s v).released = s.released ∧ (sustain s v).finish = s.finish := by
  simp [sustain]

/-! ## C13 -/

/-- C13 (counterexample). At the positive sample rate 48000 the constructor
called with durations -1 stores -48000 samples for each phase, and the setters
`attack(-1)`, `decay(-1)`, `release(-1)` on the scenario generator store
negative sample counts as well. -/
theorem negative_durations_not_clamped :
    (construct 48000 (-1) (-1) (1 / 2) (-1)).att = -48000 ∧
      (construct 48000 (-1) (-1) (1 / 2) (-1)).dec = -48000 ∧
      (construct 48000 (-1) (-1) (1 / 2) (-1)).rel = -48000 ∧
      (0 : Int) < demo.sr ∧
      (attack demo (-1)).att < 0 ∧ (decay demo (-1)).dec < 0 ∧
      (release_float demo (-1)).rel < 0 := by
  norm_num [demo, construct, attack, decay, release_float]

/-- C13 (amended). For a positive sample rate no duration is clamped: the
constructor stores `attackMS * sr`, `decayMS * sr`, `releaseMS * sr`, each
non-negative exactly when its argument is; `attack(v)` stores
`(v + 0.002) * sr`, non-negative exactly when `v ≥ -0.002`; `decay(v)` stores
`(v + 0.01) * sr`, non-negative exactly when `v ≥ -0.01`; `release(v)` stores
`v * sr`, non-negative exactly when `v ≥ 0`. -/
theorem durations_scaled_not_clamped (srate : Int) (attackMS decayMS sustain01 releaseMS : ℚ)
    (s : ADSR) (v : ℚ) (hsr : 0 < srate) (hs : 0 < s.sr) :
    (construct srate attackMS decayMS sustain01 releaseMS).att = attackMS * (srate : ℚ) ∧
      (construct srate attackMS decayMS sustain01 releaseMS).dec = decayMS * (srate : ℚ) ∧
      (construct srate attackMS decayMS sustain01 releaseMS).rel = releaseMS * (srate : ℚ) ∧
      (0 ≤ (construct srate attackMS decayMS sustain01 releaseMS).att ↔ 0 ≤ attackMS) ∧
      (0 ≤ (construct srate attackMS decayMS sustain01 releaseMS).dec ↔ 0 ≤ decayMS) ∧
      (0 ≤ (construct srate attackMS decayMS sustain01 releaseMS).rel ↔ 0 ≤ releaseMS) ∧
      (attack s v).att = (v + 2 / 1000) * (s.sr : ℚ) ∧
      (decay s v).dec = (v + 1 / 100) * (s.sr : ℚ) ∧
      (release_float s v).rel = v * (s.sr : ℚ) ∧
      (0 ≤ (attack s v).att ↔ -(2 / 1000) ≤ v) ∧
      (0 ≤ (decay s v).dec ↔ -(1 / 100) ≤ v) ∧
      (0 ≤ (release_float s v).rel ↔ 0 ≤ v) := by
  have q1 : (0 : ℚ) < (srate : ℚ) := by exact_mod_cast hsr
  have q2 : (0 : ℚ) < (s.sr : ℚ) := by exact_mod_cast hs
  have key : ∀ (x c : ℚ), 0 < c → (0 ≤ x * c ↔ 0 ≤ x) := by
    intro x c hc
    constructor
    · intro h
      by_contra hx
      have := mul_neg_of_neg_of_pos (not_le.mp hx) hc
      linarith
    · intro h
      exact mul_nonneg h hc.le
  refine ⟨rfl, rfl, rfl, key _ _ q1, key _ _ q1, key _ _ q1, rfl, rfl, rfl, ?_, ?_,
    key _ _ q2⟩
  · show 0 ≤ (v + 2 / 1000) * (s.sr : ℚ) ↔ -(2 / 1000) ≤ v
    rw [key _ _ q2]
    constructor <;> intro h <;> linarith
  · show 0 ≤ (v + 1 / 100) * (s.sr : ℚ) ↔ -(1 / 100) ≤ v
    rw [key _ _ q2]
    constructor <;> intro h <;> linarith

/-- Witness of C13 (amended): sample rate 48000, the scenario generator and the
setter argument -1. -/
theorem durations_scaled_not_clamped_witness :
    (0 : Int) < 48000 ∧ 0 < demo.sr ∧
      (attack demo (-1)).att = (-1 + 2 / 1000) * (demo.sr : ℚ) ∧
      ¬ (0 ≤ (attack demo (-1)).att) :=
  ⟨by norm_num, by norm_num [demo, construct],
    (durations_scaled_not_clamped 48000 (-1) (-1) (1 / 2) (-1) demo (-1) (by norm_num)
      (by norm_num [demo, construct])).2.2.2.2.2.2.1,
    fun h => absurd
      ((durations_scaled_not_clamped 48000 (-1) (-1) (1 / 2) (-1) demo (-1) (by norm_num)
        (by norm_num [demo, construct])).2.2.2.2.2.2.2.2.2.1.mp h) (by norm_num)⟩

/-! ## C14 -/

/-- C14 (counterexample). Constructing the generator with sample rate 48000 and
the arguments 10, 20, 0.5, 30 yields 480000, 960000 and 1440000 samples, not
480, 960 and 1440. -/
theorem construct_ms_scenario_is_off :
    (construct 48000 10 20 (1 / 2) 30).att = 480000 ∧
      (construct 48000 10 20 (1 / 2) 30).dec = 960000 ∧
      (construct 48000 10 20 (1 / 2) 30).rel = 1440000 ∧
      (construct 48000 10 20 (1 / 2) 30).att ≠ 480 ∧
      (construct 48000 10 20 (1 / 2) 30).dec ≠ 960 ∧
      (construct 48000 10 20 (1 / 2) 30).rel ≠ 1440 := by
  norm_num [construct]

/-- C14 (amended). The constructor multiplies each duration by the sample rate
without dividing by 1000, so its durations are in seconds: with sample rate
48000 and the arguments 0.01, 0.02, 0.5, 0.03 it yields 480, 960 and 1440
samples and sustain level 0.5. -/
theorem construct_seconds_scenario (srate : Int) (attackMS decayMS sustain01 releaseMS : ℚ) :
    (construct srate attackMS decayMS sustain01 releaseMS).att = attackMS * (srate : ℚ) ∧
      (construct srate attackMS decayMS sustain01 releaseMS).dec = decayMS * (srate : ℚ) ∧
      (construct srate attackMS decayMS sustain01 releaseMS).rel = releaseMS * (srate : ℚ) ∧
      (construct srate attackMS decayMS sustain01 releaseMS).sus = sustain01 ∧
      (construct 48000 (1 / 100) (2 / 100) (1 / 2) (3 / 100)).att = 480 ∧
      (construct 48000 (1 / 100) (2 / 100) (1 / 2) (3 / 100)).dec = 960 ∧
      (construct 48000 (1 / 100) (2 / 100) (1 / 2) (3 / 100)).rel = 1440 ∧
      (construct 48000 (1 / 100) (2 / 100) (1 / 2) (3 / 100)).sus = 1 / 2 := by
  refine ⟨rfl, rfl, rfl, rfl, ?_, ?_, ?_, rfl⟩ <;> norm_num [construct]

/-! ## C15 -/

theorem process_smooth (s : ADSR) (n : Int) (h : s.enableSmoothing = true) :
    process s n =
      ({ s with progress := s.progress + (n : ℚ),
                finish := (phase s (s.progress + (n : ℚ))).2,
                g1 := (filterStep s.w s.a s.b eps
                  (phase s (s.progress + (n : ℚ))).1 s.g1 s.g2).1,
                g2 := (filterStep s.w s.a s.b eps
                  (phase s (s.progress + (n : ℚ))).1 s.g1 s.g2).2 },
        (filterStep s.w s.a s.b eps (phase s (s.progress + (n : ℚ))).1 s.g1 s.g2).2) := by
  unfold process filterStep
  simp [h]

/-- C15. The constructor sets `w = 10 / sampleRate`, `a = 0.07`,
`b = 1 / (1 - a)` and `g1 = g2 = 0`. With smoothing enabled `process(n)`
computes the raw phase output `x`, stores
`g1' = g1 + w * (x - g1 - a * g2 - eps)` and
`g2' = g2 + w * (b * g1' - g2 + eps)` (with the updated `g1'`) and returns
`g2'`; with smoothing disabled it returns `x` and leaves `g1, g2` unchanged. -/
theorem smoothing_filter_step (srate : Int) (attackMS decayMS sustain01 releaseMS : ℚ)
    (s : ADSR) (n : Int) :
    (construct srate attackMS decayMS sustain01 releaseMS).w = 10 / (srate : ℚ) ∧
      (construct srate attackMS decayMS sustain01 releaseMS).a = 7 / 100 ∧
      (construct srate attackMS decayMS sustain01 releaseMS).b
        = 1 / (1 - (construct srate attackMS decayMS sustain01 releaseMS).a) ∧
      (construct srate attackMS decayMS sustain01 releaseMS).g1 = 0 ∧
      (construct srate attackMS decayMS sustain01 releaseMS).g2 = 0 ∧
      (s.enableSmoothing = true →
        (process s n).1.g1
          = s.g1 + s.w * ((phase s (s.progress + (n : ℚ))).1 - s.g1 - s.a * s.g2 - eps) ∧
        (process s n).1.g2
          = s.g2 + s.w * (s.b * (process s n).1.g1 - s.g2 + eps) ∧
        (process s n).2 = (process s n).1.g2 ∧
        ((process s n).1.g1, (process s n).1.g2)
          = filterStep s.w s.a s.b eps (phase s (s.progress + (n : ℚ))).1 s.g1 s.g2) ∧
      (s.enableSmoothing = false →
        (process s n).2 = (phase s (s.progress + (n : ℚ))).1 ∧
        (process s n).1.g1 = s.g1 ∧ (process s n).1.g2 = s.g2) := by
  refine ⟨by simp [construct], rfl, rfl, rfl, rfl, ?_, ?_⟩
  · intro h
    rw [process_smooth s n h]
    exact ⟨rfl, rfl, rfl, rfl⟩
  · intro h
    rw [process_raw s n h]
    exact ⟨rfl, rfl, rfl⟩

/-- Witness of C15: the scenario generator with smoothing enabled after
`trigger()`; `process(480)` has raw output 1 and the filter starts from 0. -/
theorem smoothing_filter_step_witness :
    (setSmoothing (trigger demo) true).enableSmoothing = true ∧
      (phase (setSmoothing (trigger demo) true)
        ((setSmoothing (trigger demo) true).progress + ((480 : Int) : ℚ))).1 = 1 ∧
      (process (setSmoothing (trigger demo) true) 480).2
        = (process (setSmoothing (trigger demo) true) 480).1.g2 :=
  ⟨rfl, by norm_num [demo, construct, trigger, setSmoothing, phase],
    ((smoothing_filter_step 48000 (1 / 100) (2 / 100) (1 / 2) (3 / 100)
      (setSmoothing (trigger demo) true) 480).2.2.2.2.2.1 rfl).2.2.1⟩

/-! ## C16 -/

/-- C16 (counterexample). The scenario generator (non-negative phase lengths)
sustaining at progress 5000 after `trigger()` and `process(5000)`: `release()`
puts the progress back to `att + dec = 1440`, below its value before the
call. -/
theorem release_lowers_progress :
    0 ≤ (run demo [Op.trigger, Op.process 5000]).att ∧
      0 ≤ (run demo [Op.trigger, Op.process 5000]).dec ∧
      0 ≤ (run demo [Op.trigger, Op.process 5000]).rel ∧
      (run demo [Op.trigger, Op.process 5000]).progress = 5000 ∧
      (step (run demo [Op.trigger, Op.process 5000]) Op.release).progress = 1440 ∧
      ¬ ((run demo [Op.trigger, Op.process 5000]).progress
          ≤ (step (run demo [Op.trigger, Op.process 5000]) Op.release).progress) := by
  norm_num [demo, construct, run, step, process, phase, trigger, release]

/-- C16 (amended). `process(n)` with `n ≥ 0`, the four parameter setters and
`setSmoothing` never lower the progress (the setters leave it unchanged);
`release()` sets it to `att + dec`, which is at least the old progress exactly
when the old progress is at most `att + dec`. -/
theorem progress_monotone_except_release (s : ADSR) (op : Op)
    (ht : op ≠ Op.trigger) (hr : op ≠ Op.release)
    (hn : ∀ n : Int, op = Op.process n → 0 ≤ n) :
    s.progress ≤ (step s op).progress ∧
      ((∀ n : Int, op ≠ Op.process n) → (step s op).progress = s.progress) ∧
      (step s Op.release).progress = s.att + s.dec ∧
      (s.progress ≤ (step s Op.release).progress ↔ s.progress ≤ s.att + s.dec) := by
  refine ⟨?_, ?_, rfl, Iff.rfl⟩
  · cases op with
    | attack a => exact le_refl _
    | decay d => exact le_refl _
    | sustain v => exact le_refl _
    | release_float r => exact le_refl _
    | trigger => exact absurd rfl ht
    | release => exact absurd rfl hr
    | setSmoothing v => exact le_refl _
    | process n =>
      have h0 : (0 : ℚ) ≤ (n : ℚ) := by exact_mod_cast hn n rfl
      show s.progress ≤ (process s n).1.progress
      rw [process_progress]
      linarith
  · intro hp
    cases op with
    | attack a => rfl
    | decay d => rfl
    | sustain v => rfl
    | release_float r => rfl
    | trigger => exact absurd rfl ht
    | release => exact absurd rfl hr
    | setSmoothing v => rfl
    | process n => exact absurd rfl (hp n)

/-- Witness of C16 (amended): `process(64)` on the scenario generator after
`trigger()`. -/
theorem progress_monotone_except_release_witness :
    (trigger demo).progress = 0 ∧ (step (trigger demo) (Op.process 64)).progress = 64 ∧
      (trigger demo).progress ≤ (step (trigger demo) (Op.process 64)).progress :=
  ⟨rfl, by norm_num [demo, construct, step, process, trigger],
    (progress_monotone_except_release (trigger demo) (Op.process 64) (by simp) (by simp)
      (by intro n h; cases h; norm_num)).1⟩

/-! ## C17 -/

/-- C17. In a finished state every operation other than `trigger()`
(`release()`, `process(n)` for any `n`, the four parameter setters and
`setSmoothing`) leaves `finished()` true; `trigger()` makes it false, and it is
the only operation after which `finished()` is false. -/
theorem finished_stays_until_trigger (s : ADSR) (op : Op) (hf : finished s = true) :
    (op ≠ Op.trigger → finished (step s op) = true) ∧
      finished (step s Op.trigger) = false ∧
      (finished (step s op) = false → op = Op.trigger) := by
  have h1 : op ≠ Op.trigger → finished (step s op) = true := by
    intro ht
    cases op with
    | attack a => exact hf
    | decay d => exact hf
    | sustain v => exact hf
    | release_float r => exact hf
    | trigger => exact absurd rfl ht
    | release => exact hf
    | setSmoothing v => exact hf
    | process n =>
      show (process s n).1.finish = true
      rw [process_finish]
      rcases phase_finish_or s (s.progress + (n : ℚ)) with e | ⟨e, _⟩
      · rw [e]; exact hf
      · exact e
  refine ⟨h1, rfl, ?_⟩
  intro h
  by_contra hne
  rw [h1 hne] at h
  exact absurd h (by simp)

/-- Witness of C17: the freshly constructed scenario generator is finished and
stays so after `release()`. -/
theorem finished_stays_until_trigger_witness :
    finished demo = true ∧ finished (step demo Op.release) = true :=
  ⟨rfl, (finished_stays_until_trigger demo Op.release rfl).1 (by simp)⟩

/-! ## C18 -/

/-- C18. `release()` sets `progress = att + dec` and `released = true` and
leaves `finish`, the phase lengths, the sustain level, the smoothing flag, the
filter coefficients and the filter state unchanged; `is_released()` is true
afterwards, from any state. -/
theorem release_event_frame (s : ADSR) :
    (release s).progress = s.att + s.dec ∧ (release s).released = true ∧
      is_released (release s) = true ∧
      (release s).finish = s.finish ∧ finished (release s) = finished s ∧
      (release s).att = s.att ∧ (release s).dec = s.dec ∧ (release s).rel = s.rel ∧
      (release s).sus = s.sus ∧ (release s).enableSmoothing = s.enableSmoothing ∧
      (release s).g1 = s.g1 ∧ (release s).g2 = s.g2 ∧
      (release s).w = s.w ∧ (release s).a = s.a ∧ (release s).b = s.b ∧
      (release s).sr = s.sr := by
  simp [release, is_released, finished]

/-! ## Binary32 rounding: order, exactness and error -/

theorem pow2_eq (e : Int) : pow2 e = (2 : ℚ) ^ e := by
  unfold pow2
  split_ifs with h
  · obtain ⟨n, rfl⟩ := Int.eq_ofNat_of_zero_le h
    simp
  · have h2 : 0 ≤ -e := by omega
    obtain ⟨n, hn⟩ := Int.eq_ofNat_of_zero_le h2
    have : e = -(n : Int) := by omega
    subst this
    simp

theorem log2Fuel_eq (fuel n : Nat) (h : n ≤ fuel) : log2Fuel fuel n = Nat.log 2 n := by
  induction fuel generalizing n with
  | zero =>
    have : n = 0 := by omega
    subst this
    simp [log2Fuel]
  | succ f ih =>
    unfold log2Fuel
    split_ifs with h2
    · rw [ih (n / 2) (by omega), Nat.log_of_one_lt_of_le (by norm_num) h2]
    · rw [Nat.log_of_lt (by omega)]

theorem nlog2_eq (n : Nat) : nlog2 n = Nat.log 2 n := log2Fuel_eq n n le_rfl

theorem pow2_pos (e : Int) : 0 < pow2 e := by
  rw [pow2_eq]; positivity

theorem ilog2_spec (x : ℚ) (hx : 0 < x) :
    (2 : ℚ) ^ (ilog2 x) ≤ x ∧ x < (2 : ℚ) ^ (ilog2 x + 1) := by
  have hnum : 0 < x.num := Rat.num_pos.mpr hx
  have ha0 : x.num.natAbs ≠ 0 := by
    intro h; rw [Int.natAbs_eq_zero] at h; omega
  have hd0 : x.den ≠ 0 := x.den_nz
  have hxd : x * (x.den : ℚ) = (x.num.natAbs : ℚ) := by
    have h1 : ((x.num.natAbs : Int) : ℚ) = (x.num : ℚ) :=
      congrArg (Int.cast : Int → ℚ) (Int.natAbs_of_nonneg hnum.le)
    have h2 : ((x.num.natAbs : Int) : ℚ) = (x.num.natAbs : ℚ) := Int.cast_natCast _
    rw [Rat.mul_den_eq_num]
    exact h1.symm.trans h2
  have a1 : ((2 : ℚ) ^ (Nat.log 2 x.num.natAbs)) ≤ (x.num.natAbs : ℚ) := by
    exact_mod_cast Nat.pow_log_le_self 2 ha0
  have a2 : (x.num.natAbs : ℚ) < (2 : ℚ) ^ (Nat.log 2 x.num.natAbs + 1) := by
    exact_mod_cast Nat.lt_pow_succ_log_self (by norm_num) x.num.natAbs
  have d1 : ((2 : ℚ) ^ (Nat.log 2 x.den)) ≤ (x.den : ℚ) := by
    exact_mod_cast Nat.pow_log_le_self 2 hd0
  have d2 : (x.den : ℚ) < (2 : ℚ) ^ (Nat.log 2 x.den + 1) := by
    exact_mod_cast Nat.lt_pow_succ_log_self (by norm_num) x.den
  have two_ne : (2 : ℚ) ≠ 0 := by norm_num
  have up : x < (2 : ℚ) ^ ((Nat.log 2 x.num.natAbs : Int) - (Nat.log 2 x.den : Int) + 1) := by
    have e : (2 : ℚ) ^ ((Nat.log 2 x.num.natAbs : Int) - (Nat.log 2 x.den : Int) + 1)
        = (2 : ℚ) ^ (Nat.log 2 x.num.natAbs + 1) / (2 : ℚ) ^ (Nat.log 2 x.den) := by
      rw [show ((Nat.log 2 x.num.natAbs : Int) - (Nat.log 2 x.den : Int) + 1)
          = ((Nat.log 2 x.num.natAbs + 1 : Nat) : Int) - ((Nat.log 2 x.den : Nat) : Int) by
        push_cast; ring]
      rw [zpow_sub₀ two_ne, zpow_natCast, zpow_natCast]
    rw [e, lt_div_iff₀ (by positivity)]
    calc x * (2 : ℚ) ^ (Nat.log 2 x.den)
        ≤ x * (x.den : ℚ) := mul_le_mul_of_nonneg_left d1 hx.le
      _ = (x.num.natAbs : ℚ) := hxd
      _ < (2 : ℚ) ^ (Nat.log 2 x.num.natAbs + 1) := a2
  have lo : (2 : ℚ) ^ ((Nat.log 2 x.num.natAbs : Int) - (Nat.log 2 x.den : Int) - 1) ≤ x := by
    have e : (2 : ℚ) ^ ((Nat.log 2 x.num.natAbs : Int) - (Nat.log 2 x.den : Int) - 1)
        = (2 : ℚ) ^ (Nat.log 2 x.num.natAbs) / (2 : ℚ) ^ (Nat.log 2 x.den + 1) := by
      rw [show ((Nat.log 2 x.num.natAbs : Int) - (Nat.log 2 x.den : Int) - 1)
          = ((Nat.log 2 x.num.natAbs : Nat) : Int) - ((Nat.log 2 x.den + 1 : Nat) : Int) by
        push_cast; ring]
      rw [zpow_sub₀ two_ne, zpow_natCast, zpow_natCast]
    rw [e, div_le_iff₀ (by positivity)]
    calc (2 : ℚ) ^ (Nat.log 2 x.num.natAbs)
        ≤ (x.num.natAbs : ℚ) := a1
      _ = x * (x.den : ℚ) := hxd.symm
      _ ≤ x * (2 : ℚ) ^ (Nat.log 2 x.den + 1) := mul_le_mul_of_nonneg_left d2.le hx.le
  unfold ilog2
  simp only [nlog2_eq]
  split_ifs with h
  · rw [pow2_eq] at h
    exact ⟨h, up⟩
  · rw [pow2_eq] at h
    refine ⟨lo, ?_⟩
    rw [sub_add_cancel]
    exact not_le.mp h

theorem ilog2_lt_of_lt_pow (x : ℚ) (hx : 0 < x) (e : Int) (h : x < (2 : ℚ) ^ e) :
    ilog2 x < e := by
  have h1 := (ilog2_spec x hx).1
  have : (2 : ℚ) ^ (ilog2 x) < (2 : ℚ) ^ e := lt_of_le_of_lt h1 h
  exact (zpow_lt_zpow_iff_right₀ (by norm_num)).mp this

theorem le_ilog2_of_pow_le (x : ℚ) (hx : 0 < x) (e : Int) (h : (2 : ℚ) ^ e ≤ x) :
    e ≤ ilog2 x := by
  have h1 := (ilog2_spec x hx).2
  have : (2 : ℚ) ^ e < (2 : ℚ) ^ (ilog2 x + 1) := lt_of_le_of_lt h h1
  have := (zpow_lt_zpow_iff_right₀ (by norm_num)).mp this
  omega

theorem ilog2_mono (x y : ℚ) (hx : 0 < x) (hxy : x ≤ y) : ilog2 x ≤ ilog2 y :=
  le_ilog2_of_pow_le y (lt_of_lt_of_le hx hxy) _ (le_trans (ilog2_spec x hx).1 hxy)

/-! ### Rounding to the nearest integer -/

theorem rne_bounds (r : ℚ) : ⌊r⌋ ≤ rne r ∧ rne r ≤ ⌊r⌋ + 1 := by
  unfold rne
  dsimp only
  split_ifs <;> constructor <;> omega

theorem rne_intCast (z : Int) : rne (z : ℚ) = z := by
  unfold rne
  simp

theorem rne_mono (r s : ℚ) (h : r ≤ s) : rne r ≤ rne s := by
  have hf : ⌊r⌋ ≤ ⌊s⌋ := Int.floor_mono h
  rcases lt_or_eq_of_le hf with hlt | heq
  · have := (rne_bounds r).2
    have := (rne_bounds s).1
    omega
  · have hb := (rne_bounds s)
    unfold rne
    dsimp only
    rw [← heq]
    have hfr : r - (⌊r⌋ : ℚ) ≤ s - (⌊r⌋ : ℚ) := by linarith
    split_ifs <;> first | omega | (exfalso; linarith)

theorem rne_le_of_le (r : ℚ) (N : Int) (h : r ≤ (N : ℚ)) : rne r ≤ N := by
  have := rne_mono r N h
  rwa [rne_intCast] at this

theorem le_rne_of_le (r : ℚ) (N : Int) (h : (N : ℚ) ≤ r) : N ≤ rne r := by
  have := rne_mono N r h
  rwa [rne_intCast] at this

/-! ### Rounding of positive rationals -/

theorem quantum_eq (x : ℚ) : quantum x = (2 : ℚ) ^ (max (ilog2 x) (-126) - 23) := by
  unfold quantum; rw [pow2_eq]

theorem quantum_pos (x : ℚ) : 0 < quantum x := pow2_pos _

theorem lt_pow_expo (x : ℚ) (hx : 0 < x) : x < (2 : ℚ) ^ (max (ilog2 x) (-126) + 1) := by
  refine lt_of_lt_of_le (ilog2_spec x hx).2 ?_
  apply zpow_le_zpow_right₀ (by norm_num)
  have := le_max_left (ilog2 x) (-126)
  omega

theorem pow_expo_eq (E : Int) : (2 : ℚ) ^ (E + 1) = (2 : ℚ) ^ (24 : Nat) * (2 : ℚ) ^ (E - 23) := by
  rw [← zpow_natCast, ← zpow_add₀ (by norm_num : (2 : ℚ) ≠ 0)]
  congr 1
  push_cast
  ring

theorem pow_expo_eq2 (E : Int) : (2 : ℚ) ^ E = (2 : ℚ) ^ (23 : Nat) * (2 : ℚ) ^ (E - 23) := by
  rw [← zpow_natCast, ← zpow_add₀ (by norm_num : (2 : ℚ) ≠ 0)]
  congr 1
  push_cast
  ring

theorem div_quantum_lt (x : ℚ) (hx : 0 < x) : x / quantum x < (2 : ℚ) ^ (24 : Nat) := by
  rw [div_lt_iff₀ (quantum_pos x), quantum_eq, ← pow_expo_eq]
  exact lt_pow_expo x hx

theorem le_div_quantum (x : ℚ) (hx : 0 < x) (h : -126 ≤ ilog2 x) :
    (2 : ℚ) ^ (23 : Nat) ≤ x / quantum x := by
  rw [le_div_iff₀ (quantum_pos x), quantum_eq, max_eq_left h, ← pow_expo_eq2]
  exact (ilog2_spec x hx).1

theorem rne_div_quantum_bounds (x : ℚ) (hx : 0 < x) :
    0 ≤ rne (x / quantum x) ∧ rne (x / quantum x) ≤ 2 ^ 24 := by
  constructor
  · apply le_rne_of_le
    have := div_pos hx (quantum_pos x)
    simpa using this.le
  · apply rne_le_of_le
    have := (div_quantum_lt x hx).le
    simpa using this

theorem roundPos_nonneg (x : ℚ) (hx : 0 < x) : 0 ≤ roundPos x := by
  unfold roundPos
  apply mul_nonneg _ (quantum_pos x).le
  exact_mod_cast (rne_div_quantum_bounds x hx).1

theorem roundPos_le_pow (x : ℚ) (hx : 0 < x) :
    roundPos x ≤ (2 : ℚ) ^ (max (ilog2 x) (-126) + 1) := by
  unfold roundPos
  rw [pow_expo_eq, ← quantum_eq]
  apply mul_le_mul_of_nonneg_right _ (quantum_pos x).le
  have := (rne_div_quantum_bounds x hx).2
  exact_mod_cast this

theorem pow_le_roundPos (x : ℚ) (hx : 0 < x) (h : -126 ≤ ilog2 x) :
    (2 : ℚ) ^ (ilog2 x) ≤ roundPos x := by
  unfold roundPos
  have e : (2 : ℚ) ^ (ilog2 x) = (2 : ℚ) ^ (23 : Nat) * quantum x := by
    rw [quantum_eq, max_eq_left h, ← pow_expo_eq2]
  rw [e]
  apply mul_le_mul_of_nonneg_right _ (quantum_pos x).le
  have h1 : ((2 ^ 23 : Int) : ℚ) ≤ x / quantum x := by
    have := le_div_quantum x hx h
    simpa using this
  have := le_rne_of_le _ _ h1
  exact_mod_cast this

theorem roundPos_mono (x y : ℚ) (hx : 0 < x) (hxy : x ≤ y) : roundPos x ≤ roundPos y := by
  have hy : 0 < y := lt_of_lt_of_le hx hxy
  have hl := ilog2_mono x y hx hxy
  have hE : max (ilog2 x) (-126) ≤ max (ilog2 y) (-126) := max_le_max hl le_rfl
  rcases lt_or_eq_of_le hE with hlt | heq
  · -- different binades
    have hy126 : -126 ≤ ilog2 y := by
      by_contra hc
      rw [max_eq_right (by omega : ilog2 y ≤ -126)] at hlt
      have := le_max_right (ilog2 x) (-126)
      omega
    have hEy : max (ilog2 y) (-126) = ilog2 y := max_eq_left hy126
    calc roundPos x ≤ (2 : ℚ) ^ (max (ilog2 x) (-126) + 1) := roundPos_le_pow x hx
      _ ≤ (2 : ℚ) ^ (ilog2 y) := by
          apply zpow_le_zpow_right₀ (by norm_num)
          omega
      _ ≤ roundPos y := pow_le_roundPos y hy hy126
  · have hq : quantum x = quantum y := by
      rw [quantum_eq, quantum_eq, heq]
    unfold roundPos
    rw [hq]
    apply mul_le_mul_of_nonneg_right _ (quantum_pos y).le
    have : x / quantum y ≤ y / quantum y :=
      div_le_div_of_nonneg_right hxy (quantum_pos y).le
    exact_mod_cast rne_mono _ _ this

theorem roundPos_of_int_quotient (y : ℚ) (M : Int) (h : y / quantum y = (M : ℚ)) :
    roundPos y = y := by
  unfold roundPos
  rw [h, rne_intCast, ← h, div_mul_cancel₀ _ (quantum_pos y).ne']

theorem roundPos_rep (m e : Int) (hm1 : 1 ≤ m) (hm2 : m ≤ 2 ^ 24) (he : -126 ≤ e) :
    roundPos ((m : ℚ) * (2 : ℚ) ^ (e - 23)) = (m : ℚ) * (2 : ℚ) ^ (e - 23) := by
  have two_ne : (2 : ℚ) ≠ 0 := by norm_num
  have mq1 : (1 : ℚ) ≤ (m : ℚ) := by exact_mod_cast hm1
  have mq2 : (m : ℚ) ≤ (2 : ℚ) ^ (24 : Nat) := by exact_mod_cast hm2
  have qpos : (0 : ℚ) < (2 : ℚ) ^ (e - 23) := by positivity
  have hy : 0 < (m : ℚ) * (2 : ℚ) ^ (e - 23) := by positivity
  have hyle : (m : ℚ) * (2 : ℚ) ^ (e - 23) ≤ (2 : ℚ) ^ (e + 1) := by
    rw [pow_expo_eq]
    exact mul_le_mul_of_nonneg_right mq2 qpos.le
  have hlog : ilog2 ((m : ℚ) * (2 : ℚ) ^ (e - 23)) < e + 2 := by
    apply ilog2_lt_of_lt_pow _ hy
    refine lt_of_le_of_lt hyle ?_
    apply zpow_lt_zpow_right₀ (by norm_num)
    omega
  have hE : max (ilog2 ((m : ℚ) * (2 : ℚ) ^ (e - 23))) (-126) ≤ e + 1 := by
    apply max_le <;> omega
  rcases lt_or_eq_of_le hE with hlt | heq
  · -- the quantum divides
    have hle : max (ilog2 ((m : ℚ) * (2 : ℚ) ^ (e - 23))) (-126) ≤ e := by omega
    obtain ⟨k, hk⟩ := Int.eq_ofNat_of_zero_le (sub_nonneg.mpr hle)
    apply roundPos_of_int_quotient _ (m * 2 ^ k)
    rw [quantum_eq, mul_div_assoc, ← zpow_sub₀ two_ne]
    have : e - 23 - (max (ilog2 ((m : ℚ) * (2 : ℚ) ^ (e - 23))) (-126) - 23) = (k : Int) := by
      omega
    rw [this, zpow_natCast]
    push_cast
    ring
  · have hil : ilog2 ((m : ℚ) * (2 : ℚ) ^ (e - 23)) = e + 1 := by
      rcases max_cases (ilog2 ((m : ℚ) * (2 : ℚ) ^ (e - 23))) (-126) with ⟨h1, _⟩ | ⟨h1, _⟩
      · rw [h1] at heq; exact heq
      · rw [h1] at heq; omega
    have hlow := (ilog2_spec _ hy).1
    rw [hil] at hlow
    have hyeq : (m : ℚ) * (2 : ℚ) ^ (e - 23) = (2 : ℚ) ^ (e + 1) := le_antisymm hyle hlow
    apply roundPos_of_int_quotient _ (2 ^ 23)
    rw [quantum_eq, heq, hyeq, ← zpow_sub₀ two_ne]
    have : e + 1 - (e + 1 - 23) = ((23 : Nat) : Int) := by push_cast; ring
    rw [this, zpow_natCast]
    push_cast
    ring

/-! ### Rounding to binary32 -/

theorem round32_zero : round32 0 = 0 := by simp [round32]

theorem round32_of_pos (x : ℚ) (hx : 0 < x) : round32 x = roundPos x := by
  unfold round32
  rw [if_neg hx.ne', if_neg (not_lt.mpr hx.le)]

theorem round32_of_neg (x : ℚ) (hx : x < 0) : round32 x = -roundPos (-x) := by
  unfold round32
  rw [if_neg hx.ne, if_pos hx]

theorem round32_neg (x : ℚ) : round32 (-x) = -round32 x := by
  rcases lt_trichotomy x 0 with h | h | h
  · rw [round32_of_neg x h, round32_of_pos (-x) (by linarith), neg_neg]
  · subst h; simp [round32_zero]
  · rw [round32_of_pos x h, round32_of_neg (-x) (by linarith), neg_neg]

theorem round32_nonneg (x : ℚ) (hx : 0 ≤ x) : 0 ≤ round32 x := by
  rcases lt_or_eq_of_le hx with h | h
  · rw [round32_of_pos x h]; exact roundPos_nonneg x h
  · rw [← h, round32_zero]

theorem round32_nonpos (x : ℚ) (hx : x ≤ 0) : round32 x ≤ 0 := by
  have := round32_nonneg (-x) (by linarith)
  rw [round32_neg] at this
  linarith

theorem round32_mono (x y : ℚ) (h : x ≤ y) : round32 x ≤ round32 y := by
  rcases lt_or_le 0 x with hx | hx
  · rw [round32_of_pos x hx, round32_of_pos y (lt_of_lt_of_le hx h)]
    exact roundPos_mono x y hx h
  · rcases le_or_lt 0 y with hy | hy
    · exact le_trans (round32_nonpos x hx) (round32_nonneg y hy)
    · rw [round32_of_neg x (lt_of_le_of_lt h hy), round32_of_neg y hy]
      have := roundPos_mono (-y) (-x) (by linarith) (by linarith)
      linarith

theorem round32_rep (m e : Int) (hm : |m| ≤ 2 ^ 24) (he : -126 ≤ e) :
    round32 ((m : ℚ) * (2 : ℚ) ^ (e - 23)) = (m : ℚ) * (2 : ℚ) ^ (e - 23) := by
  have qpos : (0 : ℚ) < (2 : ℚ) ^ (e - 23) := by positivity
  rcases lt_trichotomy m 0 with h | h | h
  · have hm' : -m ≤ 2 ^ 24 := by
      have := neg_abs_le m
      have := abs_le.mp hm
      omega
    have hneg : (m : ℚ) * (2 : ℚ) ^ (e - 23) < 0 := by
      apply mul_neg_of_neg_of_pos _ qpos
      exact_mod_cast h
    rw [round32_of_neg _ hneg]
    have := roundPos_rep (-m) e (by omega) hm' he
    push_cast at this
    rw [neg_mul] at this
    rw [this, neg_neg]
  · subst h; simp [round32_zero]
  · have hm' : m ≤ 2 ^ 24 := (abs_le.mp hm).2
    have hpos : 0 < (m : ℚ) * (2 : ℚ) ^ (e - 23) := by
      apply mul_pos _ qpos
      exact_mod_cast h
    rw [round32_of_pos _ hpos]
    exact roundPos_rep m e (by omega) hm' he

theorem round32_intCast (k : Int) (hk : |k| ≤ 2 ^ 24) : round32 (k : ℚ) = (k : ℚ) := by
  have := round32_rep k 23 hk (by norm_num)
  simpa using this

theorem round32_idem (x : ℚ) : round32 (round32 x) = round32 x := by
  have key : ∀ y : ℚ, 0 < y → round32 (roundPos y) = roundPos y := by
    intro y hy
    obtain ⟨b0, b1⟩ := rne_div_quantum_bounds y hy
    have e : roundPos y = ((rne (y / quantum y) : Int) : ℚ)
        * (2 : ℚ) ^ (max (ilog2 y) (-126) - 23) := by
      unfold roundPos; rw [quantum_eq]
    rw [e]
    apply round32_rep _ _ _ (le_max_right _ _)
    rw [abs_of_nonneg b0]
    exact b1
  rcases lt_trichotomy x 0 with h | h | h
  · rw [round32_of_neg x h, round32_neg, key (-x) (by linarith)]
  · subst h; simp [round32_zero]
  · rw [round32_of_pos x h, key x h]

theorem rne_error (r : ℚ) : |((rne r : Int) : ℚ) - r| ≤ 1 / 2 := by
  have h0 : (⌊r⌋ : ℚ) ≤ r := Int.floor_le r
  have h1 : r < (⌊r⌋ : ℚ) + 1 := Int.lt_floor_add_one r
  unfold rne
  dsimp only
  rw [abs_le]
  split_ifs with c1 c2 c3
  · constructor <;> linarith
  · push_cast
    constructor <;> linarith
  · have : r - (⌊r⌋ : ℚ) = 1 / 2 := le_antisymm (not_lt.mp c2) (not_lt.mp c1)
    constructor <;> linarith
  · have : r - (⌊r⌋ : ℚ) = 1 / 2 := le_antisymm (not_lt.mp c2) (not_lt.mp c1)
    push_cast
    constructor <;> linarith

theorem roundPos_error (y : ℚ) (hy : 0 < y) :
    |roundPos y - y| ≤ y / 2 ^ 24 + 1 / 2 ^ 150 := by
  have hq := quantum_pos y
  have e1 : roundPos y - y = (((rne (y / quantum y) : Int) : ℚ) - y / quantum y) * quantum y := by
    unfold roundPos
    rw [sub_mul, div_mul_cancel₀ _ hq.ne']
  have hb : |roundPos y - y| ≤ quantum y / 2 := by
    rw [e1, abs_mul, abs_of_pos hq]
    have := rne_error (y / quantum y)
    calc |((rne (y / quantum y) : Int) : ℚ) - y / quantum y| * quantum y
        ≤ 1 / 2 * quantum y := mul_le_mul_of_nonneg_right this hq.le
      _ = quantum y / 2 := by ring
  have hpos : (0 : ℚ) ≤ 1 / 2 ^ 150 := by positivity
  have hypos : (0 : ℚ) ≤ y / 2 ^ 24 := by positivity
  by_cases h : -126 ≤ ilog2 y
  · have hq2 : quantum y * 2 ^ (23 : Nat) ≤ y := by
      have := (ilog2_spec y hy).1
      rw [pow_expo_eq2 (ilog2 y)] at this
      rw [quantum_eq, max_eq_left h, mul_comm]
      exact this
    have : quantum y / 2 ≤ y / 2 ^ 24 := by
      rw [div_le_div_iff₀ (by norm_num) (by positivity)]
      calc quantum y * 2 ^ 24 = quantum y * 2 ^ (23 : Nat) * 2 := by ring
        _ ≤ y * 2 := mul_le_mul_of_nonneg_right hq2 (by norm_num)
    linarith
  · have hE : max (ilog2 y) (-126) = -126 := max_eq_right (by omega)
    have : quantum y / 2 = 1 / 2 ^ 150 := by
      rw [quantum_eq, hE]
      norm_num
    linarith

theorem round32_error (y : ℚ) : |round32 y - y| ≤ |y| / 2 ^ 24 + 1 / 2 ^ 150 := by
  rcases lt_trichotomy y 0 with h | h | h
  · rw [round32_of_neg y h, abs_of_neg h]
    have := roundPos_error (-y) (by linarith)
    rw [show -roundPos (-y) - y = -(roundPos (-y) - -y) by ring, abs_neg]
    exact this
  · subst h
    rw [round32_zero]
    norm_num
  · rw [round32_of_pos y h, abs_of_pos h]
    exact roundPos_error y h

theorem absorbed_increment (g r : ℚ) (h : round32 (g + r) = g) :
    |r| ≤ |g + r| / 2 ^ 24 + 1 / 2 ^ 150 := by
  have := round32_error (g + r)
  rw [h, show g - (g + r) = -r by ring, abs_neg] at this
  exact this

/-! ## The binary32 model: unfolding and the exact instance -/

theorem process32_raw (s : ADSR) (n : Int) (h : s.enableSmoothing = false) :
    process32 s n =
      ({ s with progress := round32 (s.progress + round32 (n : ℚ)),
                finish := (phase32 s (round32 (s.progress + round32 (n : ℚ)))).2 },
        (phase32 s (round32 (s.progress + round32 (n : ℚ)))).1) := by
  unfold process32 processR phase32
  simp [h]

theorem phase32_attack (s : ADSR) (p : ℚ) (h1 : p < s.att) :
    phase32 s p = (round32 (p / s.att), s.finish) := by
  simp [phase32, phaseR, h1]

theorem phase32_decay (s : ADSR) (p : ℚ) (h1 : s.att ≤ p)
    (h2 : p < round32 (s.att + s.dec)) :
    phase32 s p
      = (round32 (1 - round32 (round32 (1 - s.sus)
          * round32 (round32 (p - s.att) / s.dec))), s.finish) := by
  simp [phase32, phaseR, not_lt.mpr h1, h2]

theorem phase32_release (s : ADSR) (p : ℚ) (h1 : s.att ≤ p)
    (h2 : round32 (s.att + s.dec) < p)
    (h3 : p < round32 (round32 (s.att + s.dec) + s.rel)) (hr : s.released = true) :
    phase32 s p
      = (round32 (s.sus - round32 (round32 (s.sus * round32 (p - round32 (s.att + s.dec)))
          / s.rel)), s.finish) := by
  simp [phase32, phaseR, not_lt.mpr h1, not_lt.mpr (le_of_lt h2), h2, h3, hr]

theorem phase32_sustain (s : ADSR) (p : ℚ) (h1 : s.att ≤ p)
    (h2 : round32 (s.att + s.dec) ≤ p) (hr : s.released = false) :
    phase32 s p = (s.sus, s.finish) := by
  simp [phase32, phaseR, not_lt.mpr h1, not_lt.mpr h2, hr]

/-- With rounding switched off the rounded model is the exact one. -/
theorem processR_id (s : ADSR) (n : Int) : processR id s n = process s n := by
  unfold processR process phaseR phase filterStepR
  simp only [id]

theorem releaseR_id (s : ADSR) : releaseR id s = release s := rfl

theorem constructR_id (srate : Int) (attackMS decayMS sustain01 releaseMS : ℚ) :
    constructR id srate attackMS decayMS sustain01 releaseMS
      = construct srate attackMS decayMS sustain01 releaseMS := by
  simp [constructR, construct]

theorem filterStepR_id (w a b e x g1 g2 : ℚ) :
    filterStepR id w a b e x g1 g2 = filterStep w a b e x g1 g2 := by
  simp [filterStepR, filterStep]

theorem round32_one : round32 1 = 1 := by
  have := round32_intCast 1 (by norm_num)
  simpa using this

theorem round32_int_sum (A D : Int) (h0 : 0 ≤ A + D) (h : A + D ≤ 2 ^ 24) :
    round32 ((A : ℚ) + (D : ℚ)) = (A : ℚ) + (D : ℚ) := by
  have := round32_intCast (A + D) (by rw [abs_of_nonneg h0]; exact h)
  push_cast at this
  exact this

theorem round32_le_of_le (x b : ℚ) (hb : round32 b = b) (h : x ≤ b) : round32 x ≤ b := by
  have := round32_mono x b h
  rwa [hb] at this

theorem le_round32_of_le (x b : ℚ) (hb : round32 b = b) (h : b ≤ x) : b ≤ round32 x := by
  have := round32_mono b x h
  rwa [hb] at this

theorem le_of_lt_round32 (p x : ℚ) (hp : round32 p = p) (h : p < round32 x) : p ≤ x := by
  by_contra hc
  have := round32_le_of_le x p hp (le_of_lt (not_le.mp hc))
  linarith

theorem round32_unit (x : ℚ) (h0 : 0 ≤ x) (h1 : x ≤ 1) :
    0 ≤ round32 x ∧ round32 x ≤ 1 :=
  ⟨round32_nonneg x h0, round32_le_of_le x 1 round32_one h1⟩

theorem processBranch32_release (s : ADSR) (n : Int) :
    processBranch32 s n = Branch.release ↔
      (s.att ≤ round32 (s.progress + round32 (n : ℚ)) ∧
        s.released = true ∧
        round32 (s.att + s.dec) < round32 (s.progress + round32 (n : ℚ)) ∧
        round32 (s.progress + round32 (n : ℚ))
          < round32 (round32 (s.att + s.dec) + s.rel)) := by
  unfold processBranch32
  dsimp only
  constructor
  · intro h
    split_ifs at h with h1 h2 h3
    exact ⟨not_lt.mp h1, h3.1, h3.2.1, h3.2.2⟩
  · rintro ⟨h1, h2, h3, h4⟩
    rw [if_neg (not_lt.mpr h1), if_neg (not_lt.mpr h3.le), if_pos ⟨h2, h3, h4⟩]

theorem phase32_decay_bounds (s : ADSR) (p : ℚ)
    (hatt : round32 s.att = s.att) (hdec : round32 s.dec = s.dec)
    (h0 : 0 ≤ s.sus) (h1 : s.sus ≤ 1) (hp : round32 p = p)
    (w1 : s.att ≤ p) (w2 : p < round32 (s.att + s.dec)) :
    round32 (1 - round32 (1 - s.sus)) ≤ (phase32 s p).1 ∧ (phase32 s p).1 ≤ 1 ∧
      0 ≤ (phase32 s p).1 := by
  rw [phase32_decay s p w1 w2]
  dsimp only
  have hle : p ≤ s.att + s.dec := le_of_lt_round32 p _ hp w2
  have hdpos : 0 < s.dec := by
    by_contra hc
    have h2 : s.att + s.dec ≤ s.att := by linarith
    have := round32_le_of_le _ _ hatt h2
    linarith
  have d0 : 0 ≤ round32 (p - s.att) := round32_nonneg _ (by linarith)
  have d1 : round32 (p - s.att) ≤ s.dec := round32_le_of_le _ _ hdec (by linarith)
  obtain ⟨t0, t1⟩ := round32_unit (round32 (p - s.att) / s.dec)
    (div_nonneg d0 hdpos.le) ((div_le_one hdpos).mpr d1)
  obtain ⟨c0, c1⟩ := round32_unit (1 - s.sus) (by linarith) (by linarith)
  have u0 : 0 ≤ round32 (round32 (1 - s.sus) * round32 (round32 (p - s.att) / s.dec)) :=
    round32_nonneg _ (mul_nonneg c0 t0)
  have u1 : round32 (round32 (1 - s.sus) * round32 (round32 (p - s.att) / s.dec))
      ≤ round32 (1 - s.sus) :=
    round32_le_of_le _ _ (round32_idem _) (mul_le_of_le_one_right c0 t1)
  refine ⟨?_, ?_, ?_⟩
  · exact round32_mono _ _ (by linarith)
  · exact round32_le_of_le _ _ round32_one (by linarith)
  · exact round32_nonneg _ (by linarith)

theorem phase32_release_bounds (s : ADSR) (p : ℚ)
    (hsus : round32 s.sus = s.sus) (h0 : 0 ≤ s.sus) (hrel : 0 ≤ s.rel)
    (w1 : s.att ≤ p) (w2 : round32 (s.att + s.dec) < p)
    (w3 : p < round32 (round32 (s.att + s.dec) + s.rel)) (hr : s.released = true) :
    (phase32 s p).1 ≤ s.sus := by
  rw [phase32_release s p w1 w2 w3 hr]
  dsimp only
  have d0 : 0 ≤ round32 (p - round32 (s.att + s.dec)) := round32_nonneg _ (by linarith)
  have q0 : 0 ≤ round32 (round32 (s.sus * round32 (p - round32 (s.att + s.dec))) / s.rel) :=
    round32_nonneg _ (div_nonneg (round32_nonneg _ (mul_nonneg h0 d0)) hrel)
  exact round32_le_of_le _ _ hsus (by linarith)

theorem roundPos_le_cases (y : ℚ) (hy : 0 < y) :
    roundPos y ≤ y + y / 2 ^ 24 ∨ roundPos y ≤ y + 1 / 2 ^ 150 := by
  have hq := quantum_pos y
  have e1 : roundPos y - y = (((rne (y / quantum y) : Int) : ℚ) - y / quantum y) * quantum y := by
    unfold roundPos
    rw [sub_mul, div_mul_cancel₀ _ hq.ne']
  have hb : roundPos y - y ≤ quantum y / 2 := by
    rw [e1]
    have := (abs_le.mp (rne_error (y / quantum y))).2
    calc (((rne (y / quantum y) : Int) : ℚ) - y / quantum y) * quantum y
        ≤ 1 / 2 * quantum y := mul_le_mul_of_nonneg_right this hq.le
      _ = quantum y / 2 := by ring
  by_cases h : -126 ≤ ilog2 y
  · left
    have hq2 : quantum y * 2 ^ (23 : Nat) ≤ y := by
      have := (ilog2_spec y hy).1
      rw [pow_expo_eq2 (ilog2 y)] at this
      rw [quantum_eq, max_eq_left h, mul_comm]
      exact this
    have : quantum y / 2 ≤ y / 2 ^ 24 := by
      rw [div_le_div_iff₀ (by norm_num) (by positivity)]
      calc quantum y * 2 ^ 24 = quantum y * 2 ^ (23 : Nat) * 2 := by ring
        _ ≤ y * 2 := mul_le_mul_of_nonneg_right hq2 (by norm_num)
    linarith
  · right
    have hE : max (ilog2 y) (-126) = -126 := max_eq_right (by omega)
    have : quantum y / 2 = 1 / 2 ^ 150 := by
      rw [quantum_eq, hE]
      norm_num
    linarith

theorem min_pos_float (y : ℚ) (hy : 0 < y) (hf : round32 y = y) : 1 / 2 ^ 149 ≤ y := by
  rw [round32_of_pos y hy] at hf
  have hq := quantum_pos y
  have hm0 := (rne_div_quantum_bounds y hy).1
  have hm : 1 ≤ rne (y / quantum y) := by
    by_contra hc
    have hz : rne (y / quantum y) = 0 := by omega
    unfold roundPos at hf
    rw [hz] at hf
    simp at hf
    linarith
  have hqmin : (1 : ℚ) / 2 ^ 149 ≤ quantum y := by
    rw [quantum_eq]
    have : (2 : ℚ) ^ ((-126 : Int) - 23) ≤ (2 : ℚ) ^ (max (ilog2 y) (-126) - 23) := by
      apply zpow_le_zpow_right₀ (by norm_num)
      have := le_max_right (ilog2 y) (-126)
      omega
    refine le_trans ?_ this
    norm_num
  have e : y = ((rne (y / quantum y) : Int) : ℚ) * quantum y := by
    unfold roundPos at hf
    exact hf.symm
  have hm' : (1 : ℚ) ≤ ((rne (y / quantum y) : Int) : ℚ) := by exact_mod_cast hm
  calc (1 : ℚ) / 2 ^ 149 ≤ quantum y := hqmin
    _ = 1 * quantum y := by ring
    _ ≤ ((rne (y / quantum y) : Int) : ℚ) * quantum y :=
        mul_le_mul_of_nonneg_right hm' hq.le
    _ = y := e.symm

/-- On integer sample counts `0 ≤ d < R ≤ 2^24` the binary32 release ramp does
not go below zero. -/
theorem release_ramp32_nonneg (sus : ℚ) (d R : Int)
    (hsus : round32 sus = sus) (h0 : 0 ≤ sus)
    (hd0 : 0 ≤ d) (hd : d < R) (hR : R ≤ 2 ^ 24) :
    0 ≤ round32 (sus - round32 (round32 (sus * (d : ℚ)) / (R : ℚ))) := by
  have qd0 : (0 : ℚ) ≤ (d : ℚ) := by exact_mod_cast hd0
  have qd : (d : ℚ) + 1 ≤ (R : ℚ) := by exact_mod_cast (by omega : d + 1 ≤ R)
  have qR : (R : ℚ) ≤ 2 ^ 24 := by exact_mod_cast hR
  have qRpos : (0 : ℚ) < (R : ℚ) := by linarith
  have key : round32 (sus * (d : ℚ)) ≤ sus * (R : ℚ) := by
    rcases lt_or_eq_of_le (mul_nonneg h0 qd0) with hx | hx
    · have hspos : 0 < sus := by
        rcases lt_or_eq_of_le h0 with h | h
        · exact h
        · rw [← h] at hx; simp at hx
      rw [round32_of_pos _ hx]
      rcases roundPos_le_cases _ hx with h | h
      · refine le_trans h ?_
        have h2 : (d : ℚ) + (d : ℚ) / 2 ^ 24 ≤ (R : ℚ) := by
          have : (d : ℚ) / 2 ^ 24 ≤ 1 := by
            rw [div_le_one (by norm_num)]
            linarith
          linarith
        calc sus * (d : ℚ) + sus * (d : ℚ) / 2 ^ 24
            = sus * ((d : ℚ) + (d : ℚ) / 2 ^ 24) := by ring
          _ ≤ sus * (R : ℚ) := mul_le_mul_of_nonneg_left h2 h0
      · refine le_trans h ?_
        have hmin := min_pos_float sus hspos hsus
        have h3 : (1 : ℚ) / 2 ^ 150 ≤ sus := by
          refine le_trans ?_ hmin
          norm_num
        calc sus * (d : ℚ) + 1 / 2 ^ 150 ≤ sus * (d : ℚ) + sus := by linarith
          _ = sus * ((d : ℚ) + 1) := by ring
          _ ≤ sus * (R : ℚ) := mul_le_mul_of_nonneg_left qd h0
    · rw [← hx, round32_zero]
      exact mul_nonneg h0 qRpos.le
  have hq : round32 (round32 (sus * (d : ℚ)) / (R : ℚ)) ≤ sus := by
    apply round32_le_of_le _ _ hsus
    rw [div_le_iff₀ qRpos]
    exact key
  exact round32_nonneg _ (by linarith)

theorem process32_smooth (s : ADSR) (n : Int) (h : s.enableSmoothing = true) :
    (process32 s n).1.g1
        = (filterStepR round32 s.w s.a s.b (round32 eps)
            (phase32 s (round32 (s.progress + round32 (n : ℚ)))).1 s.g1 s.g2).1 ∧
      (process32 s n).1.g2
        = (filterStepR round32 s.w s.a s.b (round32 eps)
            (phase32 s (round32 (s.progress + round32 (n : ℚ)))).1 s.g1 s.g2).2 ∧
      (process32 s n).2 = (process32 s n).1.g2 := by
  unfold process32 processR phase32
  simp [h]

/-! ## Integer sample counts up to 2^24: exact progress arithmetic -/

theorem process32_output_bounds (s : ADSR) (n : Int)
    (hs : s.enableSmoothing = false)
    (hatt : round32 s.att = s.att) (hdec : round32 s.dec = s.dec)
    (hsus : round32 s.sus = s.sus)
    (hrel : 0 ≤ s.rel) (h0 : 0 ≤ s.sus) (h1 : s.sus ≤ 1)
    (hp : 0 ≤ s.progress) (hn : 0 ≤ n) :
    (process32 s n).2 ≤ 1 ∧
      (processBranch32 s n ≠ Branch.release → 0 ≤ (process32 s n).2) ∧
      (processBranch32 s n = Branch.release → (process32 s n).2 ≤ s.sus) := by
  have qn : (0 : ℚ) ≤ (n : ℚ) := by exact_mod_cast hn
  have hq : 0 ≤ round32 (s.progress + round32 (n : ℚ)) :=
    round32_nonneg _ (add_nonneg hp (round32_nonneg _ qn))
  have hpf : round32 (round32 (s.progress + round32 (n : ℚ)))
      = round32 (s.progress + round32 (n : ℚ)) := round32_idem _
  rw [process32_raw s n hs]
  simp only [ne_eq, processBranch32_release]
  generalize round32 (s.progress + round32 (n : ℚ)) = p at hq hpf
  by_cases c1 : p < s.att
  · rw [phase32_attack s p c1]
    dsimp only
    have hapos : 0 < s.att := lt_of_le_of_lt hq c1
    obtain ⟨b0, b1⟩ := round32_unit (p / s.att) (div_nonneg hq hapos.le)
      ((div_le_one hapos).mpr c1.le)
    exact ⟨b1, fun _ => b0, fun h => absurd h.1 (not_le.mpr c1)⟩
  · have a1 : s.att ≤ p := not_lt.mp c1
    by_cases c2 : p < round32 (s.att + s.dec)
    · obtain ⟨_, b1, b0⟩ := phase32_decay_bounds s p hatt hdec h0 h1 hpf a1 c2
      exact ⟨b1, fun _ => b0, fun h => absurd h.2.2.1 (not_lt.mpr c2.le)⟩
    · have a2 : round32 (s.att + s.dec) ≤ p := not_lt.mp c2
      by_cases c3 : s.released = true ∧ p > round32 (s.att + s.dec) ∧
          p < round32 (round32 (s.att + s.dec) + s.rel)
      · have b := phase32_release_bounds s p hsus h0 hrel a1 c3.2.1 c3.2.2 c3.1
        exact ⟨le_trans b h1, fun h => absurd ⟨a1, c3.1, c3.2.1, c3.2.2⟩ h, fun _ => b⟩
      · have nr : ¬ (s.att ≤ p ∧ s.released = true ∧ round32 (s.att + s.dec) < p ∧
            p < round32 (round32 (s.att + s.dec) + s.rel)) := fun h => c3 ⟨h.2.1, h.2.2⟩
        by_cases hr : s.released = false
        · have e : phase32 s p = (s.sus, s.finish) := phase32_sustain s p a1 a2 hr
          rw [e]
          exact ⟨h1, fun _ => h0, fun h => absurd h nr⟩
        · have e : phase32 s p = (0, true) := by
            unfold phase32 phaseR
            rw [if_neg c1, if_neg c2, if_neg c3, if_neg hr]
          rw [e]
          exact ⟨by norm_num, fun _ => le_refl _, fun h => absurd h nr⟩

/-- On integer sample counts with `att + dec + rel ≤ 2^24` the value returned by
`process` in binary32 is not negative. -/
theorem process32_nonneg_int (s : ADSR) (n A D R P : Int)
    (hs : s.enableSmoothing = false)
    (hA : s.att = (A : ℚ)) (hD : s.dec = (D : ℚ)) (hR : s.rel = (R : ℚ))
    (hP : s.progress = (P : ℚ))
    (hsus : round32 s.sus = s.sus) (h0 : 0 ≤ s.sus) (h1 : s.sus ≤ 1)
    (hA0 : 0 ≤ A) (hD0 : 0 ≤ D) (hR0 : 0 ≤ R) (hsum : A + D + R ≤ 2 ^ 24)
    (hP0 : 0 ≤ P) (hn : 0 ≤ n) :
    0 ≤ (process32 s n).2 := by
  have e1 : round32 ((A : ℚ) + (D : ℚ)) = (A : ℚ) + (D : ℚ) :=
    round32_int_sum A D (by omega) (by omega)
  have e4 : round32 ((A : ℚ) + (D : ℚ) + (R : ℚ)) = (A : ℚ) + (D : ℚ) + (R : ℚ) := by
    have := round32_int_sum (A + D) R (by omega) (by omega)
    push_cast at this
    exact this
  have fatt : round32 s.att = s.att := by
    rw [hA]; exact round32_intCast A (by rw [abs_of_nonneg hA0]; omega)
  have fdec : round32 s.dec = s.dec := by
    rw [hD]; exact round32_intCast D (by rw [abs_of_nonneg hD0]; omega)
  have qR0 : (0 : ℚ) ≤ s.rel := by rw [hR]; exact_mod_cast hR0
  have qP0 : (0 : ℚ) ≤ s.progress := by rw [hP]; exact_mod_cast hP0
  by_cases hb : processBranch32 s n = Branch.release
  · obtain ⟨w0, wr, w1, w2⟩ := (processBranch32_release s n).mp hb
    rw [hA, hD, hR, e1, e4, hP] at w2
    rw [hA, hD, e1, hP] at w1
    have e24 : round32 (((2 ^ 24 : Int) : ℚ)) = ((2 ^ 24 : Int) : ℚ) :=
      round32_intCast (2 ^ 24) (by norm_num)
    have qsum : (A : ℚ) + (D : ℚ) + (R : ℚ) ≤ ((2 ^ 24 : Int) : ℚ) := by
      exact_mod_cast hsum
    -- the progress after the call is exact
    have hsmall : P + n ≤ 2 ^ 24 ∧ n ≤ 2 ^ 24 := by
      by_contra hc
      have hbig : ((2 ^ 24 : Int) : ℚ) ≤ round32 ((P : ℚ) + round32 (n : ℚ)) := by
        apply le_round32_of_le _ _ e24
        by_cases hn24 : n ≤ 2 ^ 24
        · have en : round32 (n : ℚ) = (n : ℚ) :=
            round32_intCast n (by rw [abs_of_nonneg hn]; exact hn24)
          rw [en]
          have : (2 ^ 24 : Int) ≤ P + n := by omega
          exact_mod_cast this
        · have : ((2 ^ 24 : Int) : ℚ) ≤ round32 (n : ℚ) := by
            apply le_round32_of_le _ _ e24
            exact_mod_cast (by omega : (2 ^ 24 : Int) ≤ n)
          have qP : (0 : ℚ) ≤ (P : ℚ) := by exact_mod_cast hP0
          linarith
      linarith
    have en : round32 (n : ℚ) = (n : ℚ) :=
      round32_intCast n (by rw [abs_of_nonneg hn]; exact hsmall.2)
    have ep : round32 ((P : ℚ) + (n : ℚ)) = (P : ℚ) + (n : ℚ) :=
      round32_int_sum P n (by omega) hsmall.1
    rw [en, ep] at w1 w2
    have hd0 : 0 ≤ P + n - (A + D) := by
      have : (A + D : Int) < P + n := by exact_mod_cast w1
      omega
    have hdR : P + n - (A + D) < R := by
      have : (P + n : Int) < A + D + R := by exact_mod_cast w2
      omega
    have ed : round32 ((P : ℚ) + (n : ℚ) - ((A : ℚ) + (D : ℚ)))
        = ((P + n - (A + D) : Int) : ℚ) := by
      have := round32_intCast (P + n - (A + D)) (by rw [abs_of_nonneg hd0]; omega)
      push_cast at this ⊢
      exact this
    rw [process32_raw s n hs, hP, en, ep]
    have qD0 : (0 : ℚ) ≤ (D : ℚ) := by exact_mod_cast hD0
    rw [phase32_release s _ (by rw [hA]; linarith)
      (by rw [hA, hD, e1]; exact w1) (by rw [hA, hD, hR, e1, e4]; exact w2) wr]
    dsimp only
    rw [hA, hD, e1, ed, hR]
    exact release_ramp32_nonneg s.sus _ R hsus h0 hd0 hdR (by omega)
  · exact (process32_output_bounds s n hs fatt fdec hsus qR0 h0 h1 qP0 hn).2.1 hb

/-! ## C3 -/

/-- C6 (counterexample). In binary32 arithmetic, with the integer phase lengths
A = 4800000, D = 12000000, R = 48000 and sustain 1/2 the call `process(1)` after
`release()` returns 0 with `finished()` true, because `16800000 + 1` rounds
back to `16800000 = att + dec`; the claim says `sus - sus / R` with `finished()`
false.  With A = 2^24, D = 1, R = 2 already `process(A)` after `trigger()`
returns `sus = 1/2`, not 1, because `att + dec` rounds to `att`. -/
theorem full_cycle32_long_phases_fail :
    (construct32 48000 100 250 (1 / 2) 1).enableSmoothing = false ∧
      (construct32 48000 100 250 (1 / 2) 1).att = ((4800000 : Int) : ℚ) ∧
      (construct32 48000 100 250 (1 / 2) 1).dec = ((12000000 : Int) : ℚ) ∧
      (construct32 48000 100 250 (1 / 2) 1).rel = ((48000 : Int) : ℚ) ∧
      (construct32 48000 100 250 (1 / 2) 1).sus = 1 / 2 ∧
      (process32 (run32 (construct32 48000 100 250 (1 / 2) 1)
        [Op32.trigger, Op32.process 4800000, Op32.process 12000000, Op32.release]) 1).2 = 0 ∧
      finished (run32 (construct32 48000 100 250 (1 / 2) 1)
        [Op32.trigger, Op32.process 4800000, Op32.process 12000000, Op32.release, Op32.process 1])
        = true ∧
      (1 / 2 : ℚ) - (1 / 2) / ((48000 : Int) : ℚ) ≠ 0 ∧
      (construct32 1 16777216 1 (1 / 2) 2).att = ((16777216 : Int) : ℚ) ∧
      (construct32 1 16777216 1 (1 / 2) 2).dec = ((1 : Int) : ℚ) ∧
      (construct32 1 16777216 1 (1 / 2) 2).rel = ((2 : Int) : ℚ) ∧
      (process32 (trigger (construct32 1 16777216 1 (1 / 2) 2)) 16777216).2 = 1 / 2 := by
  decide!

/-- C6 (amended). Full cycle in binary32 arithmetic with smoothing disabled, a
binary32 sustain level in [0,1] and integer phase lengths `att = A ≥ 0`,
`dec = D > 0`, `rel = R > 1` with `A + D + R ≤ 2^24`: after `trigger()`,
`process(A)` returns exactly 1; a further `process(D)` returns exactly `sus`;
`release()` then `process(1)` returns `sus - sus / R` as binary32 evaluates it;
a further `process(R - 1)` returns 0 and raises `finished()`, which is false
after each earlier `process` call. -/
theorem full_cycle_scenario32 (s : ADSR) (A D R : Int)
    (hs : s.enableSmoothing = false)
    (hA : s.att = (A : ℚ)) (hD : s.dec = (D : ℚ)) (hR : s.rel = (R : ℚ))
    (hsus : round32 s.sus = s.sus) (_h0 : 0 ≤ s.sus) (_h1 : s.sus ≤ 1)
    (hA0 : 0 ≤ A) (hD0 : 0 < D) (hR1 : 1 < R) (hsum : A + D + R ≤ 2 ^ 24) :
    (process32 (trigger s) A).2 = 1 ∧
      finished (run32 s [Op32.trigger, Op32.process A]) = false ∧
      (process32 (run32 s [Op32.trigger, Op32.process A]) D).2 = s.sus ∧
      finished (run32 s [Op32.trigger, Op32.process A, Op32.process D]) = false ∧
      (process32 (run32 s [Op32.trigger, Op32.process A, Op32.process D, Op32.release]) 1).2
        = round32 (s.sus - round32 (s.sus / (R : ℚ))) ∧
      finished (run32 s [Op32.trigger, Op32.process A, Op32.process D, Op32.release,
        Op32.process 1]) = false ∧
      (process32 (run32 s [Op32.trigger, Op32.process A, Op32.process D, Op32.release,
        Op32.process 1]) (R - 1)).2 = 0 ∧
      finished (run32 s [Op32.trigger, Op32.process A, Op32.process D, Op32.release,
        Op32.process 1, Op32.process (R - 1)]) = true := by
  have qA : (0 : ℚ) ≤ (A : ℚ) := by exact_mod_cast hA0
  have qD : (0 : ℚ) < (D : ℚ) := by exact_mod_cast hD0
  have qR : (1 : ℚ) < (R : ℚ) := by exact_mod_cast hR1
  have rA : round32 (A : ℚ) = (A : ℚ) :=
    round32_intCast A (by rw [abs_of_nonneg hA0]; omega)
  have rD : round32 (D : ℚ) = (D : ℚ) :=
    round32_intCast D (by rw [abs_of_nonneg (by omega)]; omega)
  have rR1 : round32 ((R : ℚ) - 1) = (R : ℚ) - 1 := by
    have := round32_intCast (R - 1) (by rw [abs_of_nonneg (by omega)]; omega)
    push_cast at this
    exact this
  have rAD : round32 ((A : ℚ) + (D : ℚ)) = (A : ℚ) + (D : ℚ) :=
    round32_int_sum A D (by omega) (by omega)
  have rAD1 : round32 ((A : ℚ) + (D : ℚ) + 1) = (A : ℚ) + (D : ℚ) + 1 := by
    have := round32_int_sum (A + D) 1 (by omega) (by omega)
    push_cast at this
    exact this
  have rADR : round32 ((A : ℚ) + (D : ℚ) + (R : ℚ)) = (A : ℚ) + (D : ℚ) + (R : ℚ) := by
    have := round32_int_sum (A + D) R (by omega) (by omega)
    push_cast at this
    exact this
  have rADR' : round32 ((A : ℚ) + (D : ℚ) + 1 + ((R : ℚ) - 1))
      = (A : ℚ) + (D : ℚ) + (R : ℚ) := by
    rw [show (A : ℚ) + (D : ℚ) + 1 + ((R : ℚ) - 1) = (A : ℚ) + (D : ℚ) + (R : ℚ) by ring]
    exact rADR
  have c1 : ¬ ((A : ℚ) + (D : ℚ) + 1 < (A : ℚ)) := by linarith
  have c2 : ¬ ((A : ℚ) + (D : ℚ) < (A : ℚ)) := by linarith
  have c3 : (A : ℚ) + (D : ℚ) + 1 < (A : ℚ) + (D : ℚ) + (R : ℚ) := by linarith
  have c7 : ¬ ((A : ℚ) + (D : ℚ) + (R : ℚ) < (A : ℚ)) := by linarith
  have c8 : ¬ (R < 0) := by omega
  have c9 : ¬ ((1 : ℚ) < 0) := by norm_num
  refine ⟨?_, ?_, ?_, ?_, ?_, ?_, ?_, ?_⟩ <;>
    simp [run32, step32, process32, processR, phaseR, trigger, release32, releaseR,
      finished, hs, hA, hD, hR, hsus, qD, rA, rD, rR1, rAD, rAD1, rADR, rADR',
      round32_zero, round32_one, c1, c2, c3, c7, c8, c9]

/-- Witness of C6 (amended): the scenario generator in binary32, A = 480,
D = 960, R = 1440. -/
theorem full_cycle_scenario32_witness :
    (process32 (trigger demo32) 480).2 = 1 ∧
      finished (run32 demo32 [Op32.trigger, Op32.process 480]) = false ∧
      (process32 (run32 demo32 [Op32.trigger, Op32.process 480]) 960).2 = demo32.sus ∧
      finished (run32 demo32 [Op32.trigger, Op32.process 480, Op32.process 960]) = false ∧
      (process32 (run32 demo32 [Op32.trigger, Op32.process 480, Op32.process 960, Op32.release]) 1).2
        = round32 (demo32.sus - round32 (demo32.sus / ((1440 : Int) : ℚ))) ∧
      finished (run32 demo32 [Op32.trigger, Op32.process 480, Op32.process 960, Op32.release,
        Op32.process 1]) = false ∧
      (process32 (run32 demo32 [Op32.trigger, Op32.process 480, Op32.process 960, Op32.release,
        Op32.process 1]) (1440 - 1)).2 = 0 ∧
      finished (run32 demo32 [Op32.trigger, Op32.process 480, Op32.process 960, Op32.release,
        Op32.process 1, Op32.process (1440 - 1)]) = true :=
  full_cycle_scenario32 demo32 480 960 1440 (by decide!) (by decide!) (by decide!)
    (by decide!) (by decide!) (by decide!) (by decide!) (by decide!) (by decide!)
    (by decide!) (by decide!)

/-! ## C9 -/

/-- C10 (counterexample). Binary32 arithmetic.  The released generator
`ADSR(1, 0.5, 1, 0.48f, 10000004)` at progress 8388608: the progress values
10000004 and 10000005 both lie in the release window `(1.5, 10000006)` of the
code, with outputs `3 * 2^-25` and `-2^-25`; the second is outside `[0, sus]`.
The generator `ADSR(1, 3, 16777220, 2^-26, 0)` after `trigger()` and
`process(16777222)` is in the decay window `[3, 16777224)` of the code and
returns 0, below `sus = 2^-26`. -/
theorem process32_window_bounds_fail :
    (run32 (construct32 1 (1 / 2) 1 (round32 (48 / 100)) 10000004)
        [Op32.trigger, Op32.release, Op32.process 8388606, Op32.process 1]).released = true ∧
      round32 ((run32 (construct32 1 (1 / 2) 1 (round32 (48 / 100)) 10000004)
          [Op32.trigger, Op32.release, Op32.process 8388606, Op32.process 1]).att
        + (run32 (construct32 1 (1 / 2) 1 (round32 (48 / 100)) 10000004)
          [Op32.trigger, Op32.release, Op32.process 8388606, Op32.process 1]).dec) = 3 / 2 ∧
      round32 (3 / 2 + (run32 (construct32 1 (1 / 2) 1 (round32 (48 / 100)) 10000004)
          [Op32.trigger, Op32.release, Op32.process 8388606, Op32.process 1]).rel) = 10000006 ∧
      (process32 (run32 (construct32 1 (1 / 2) 1 (round32 (48 / 100)) 10000004)
        [Op32.trigger, Op32.release, Op32.process 8388606, Op32.process 1]) 1611396).1.progress
        = 10000004 ∧
      (process32 (run32 (construct32 1 (1 / 2) 1 (round32 (48 / 100)) 10000004)
        [Op32.trigger, Op32.release, Op32.process 8388606, Op32.process 1]) 1611397).1.progress
        = 10000005 ∧
      (process32 (run32 (construct32 1 (1 / 2) 1 (round32 (48 / 100)) 10000004)
        [Op32.trigger, Op32.release, Op32.process 8388606, Op32.process 1]) 1611396).2
        = 3 / 2 ^ 25 ∧
      (process32 (run32 (construct32 1 (1 / 2) 1 (round32 (48 / 100)) 10000004)
        [Op32.trigger, Op32.release, Op32.process 8388606, Op32.process 1]) 1611397).2
        = -(1 / 2 ^ 25) ∧
      (trigger (construct32 1 3 16777220 (1 / 2 ^ 26) 0)).att = 3 ∧
      round32 ((trigger (construct32 1 3 16777220 (1 / 2 ^ 26) 0)).att
        + (trigger (construct32 1 3 16777220 (1 / 2 ^ 26) 0)).dec) = 16777224 ∧
      (trigger (construct32 1 3 16777220 (1 / 2 ^ 26) 0)).sus = 1 / 2 ^ 26 ∧
      (process32 (trigger (construct32 1 3 16777220 (1 / 2 ^ 26) 0)) 16777222).1.progress
        = 16777222 ∧
      (process32 (trigger (construct32 1 3 16777220 (1 / 2 ^ 26) 0)) 16777222).2 = 0 := by
  decide!

theorem process32_monotone_aux (s1 s2 : ADSR) (n1 n2 : Int)
    (hs1 : s1.enableSmoothing = false) (hs2 : s2.enableSmoothing = false)
    (hatt : s2.att = s1.att) (hdec : s2.dec = s1.dec) (hrel : s2.rel = s1.rel)
    (hsus : s2.sus = s1.sus)
    (fatt : round32 s1.att = s1.att) (fdec : round32 s1.dec = s1.dec)
    (fsus : round32 s1.sus = s1.sus)
    (ha : 0 ≤ s1.att) (hd : 0 ≤ s1.dec) (hr : 0 ≤ s1.rel)
    (h0 : 0 ≤ s1.sus) (h1 : s1.sus ≤ 1)
    (hle : round32 (s1.progress + round32 (n1 : ℚ))
      ≤ round32 (s2.progress + round32 (n2 : ℚ))) :
    (round32 (s2.progress + round32 (n2 : ℚ)) < s1.att →
        (process32 s1 n1).2 ≤ (process32 s2 n2).2) ∧
      (s1.att ≤ round32 (s1.progress + round32 (n1 : ℚ)) →
        round32 (s2.progress + round32 (n2 : ℚ)) < round32 (s1.att + s1.dec) →
        (process32 s2 n2).2 ≤ (process32 s1 n1).2 ∧
          round32 (1 - round32 (1 - s1.sus)) ≤ (process32 s2 n2).2 ∧
          (process32 s1 n1).2 ≤ 1 ∧ 0 ≤ (process32 s2 n2).2) ∧
      (s1.released = true → s2.released = true →
        round32 (s1.att + s1.dec) < round32 (s1.progress + round32 (n1 : ℚ)) →
        round32 (s2.progress + round32 (n2 : ℚ))
          < round32 (round32 (s1.att + s1.dec) + s1.rel) →
        (process32 s2 n2).2 ≤ (process32 s1 n1).2 ∧ (process32 s1 n1).2 ≤ s1.sus) := by
  have f1 : round32 (round32 (s1.progress + round32 (n1 : ℚ)))
      = round32 (s1.progress + round32 (n1 : ℚ)) := round32_idem _
  have f2 : round32 (round32 (s2.progress + round32 (n2 : ℚ)))
      = round32 (s2.progress + round32 (n2 : ℚ)) := round32_idem _
  rw [process32_raw s1 n1 hs1, process32_raw s2 n2 hs2]
  dsimp only
  generalize round32 (s1.progress + round32 (n1 : ℚ)) = p1 at hle f1
  generalize round32 (s2.progress + round32 (n2 : ℚ)) = p2 at hle f2
  have c0 : 0 ≤ round32 (1 - s1.sus) := round32_nonneg _ (by linarith)
  refine ⟨?_, ?_, ?_⟩
  · intro w2
    rw [phase32_attack s1 p1 (lt_of_le_of_lt hle w2),
      phase32_attack s2 p2 (by rw [hatt]; exact w2), hatt]
    exact round32_mono _ _ (div_le_div_of_nonneg_right hle ha)
  · intro w1 w2
    have u1 : p1 < round32 (s1.att + s1.dec) := lt_of_le_of_lt hle w2
    have u2 : s1.att ≤ p2 := le_trans w1 hle
    have v1 : s2.att ≤ p2 := by rw [hatt]; exact u2
    have v2 : p2 < round32 (s2.att + s2.dec) := by rw [hatt, hdec]; exact w2
    obtain ⟨_, b2, _⟩ := phase32_decay_bounds s1 p1 fatt fdec h0 h1 f1 w1 u1
    obtain ⟨b3, _, b5⟩ := phase32_decay_bounds s2 p2 (by rw [hatt]; exact fatt)
      (by rw [hdec]; exact fdec) (by rw [hsus]; exact h0) (by rw [hsus]; exact h1) f2 v1 v2
    rw [hsus] at b3
    refine ⟨?_, b3, b2, b5⟩
    rw [phase32_decay s1 p1 w1 u1, phase32_decay s2 p2 v1 v2, hatt, hdec, hsus]
    dsimp only
    have k1 : round32 (p1 - s1.att) ≤ round32 (p2 - s1.att) :=
      round32_mono _ _ (by linarith)
    have k2 : round32 (round32 (p1 - s1.att) / s1.dec)
        ≤ round32 (round32 (p2 - s1.att) / s1.dec) :=
      round32_mono _ _ (div_le_div_of_nonneg_right k1 hd)
    have k3 : round32 (round32 (1 - s1.sus) * round32 (round32 (p1 - s1.att) / s1.dec))
        ≤ round32 (round32 (1 - s1.sus) * round32 (round32 (p2 - s1.att) / s1.dec)) :=
      round32_mono _ _ (mul_le_mul_of_nonneg_left k2 c0)
    exact round32_mono _ _ (by linarith)
  · intro r1 r2 w1 w2
    have hP : s1.att ≤ round32 (s1.att + s1.dec) :=
      le_round32_of_le _ _ fatt (by linarith)
    have u1 : p1 < round32 (round32 (s1.att + s1.dec) + s1.rel) := lt_of_le_of_lt hle w2
    have u2 : round32 (s1.att + s1.dec) < p2 := lt_of_lt_of_le w1 hle
    have v0 : s2.att ≤ p2 := by rw [hatt]; linarith
    have v1 : round32 (s2.att + s2.dec) < p2 := by rw [hatt, hdec]; exact u2
    have v2 : p2 < round32 (round32 (s2.att + s2.dec) + s2.rel) := by
      rw [hatt, hdec, hrel]; exact w2
    have b1 := phase32_release_bounds s1 p1 fsus h0 hr (by linarith) w1 u1 r1
    refine ⟨?_, b1⟩
    rw [phase32_release s1 p1 (by linarith) w1 u1 r1, phase32_release s2 p2 v0 v1 v2 r2,
      hatt, hdec, hrel, hsus]
    dsimp only
    have k1 : round32 (p1 - round32 (s1.att + s1.dec))
        ≤ round32 (p2 - round32 (s1.att + s1.dec)) := round32_mono _ _ (by linarith)
    have k2 : round32 (s1.sus * round32 (p1 - round32 (s1.att + s1.dec)))
        ≤ round32 (s1.sus * round32 (p2 - round32 (s1.att + s1.dec))) :=
      round32_mono _ _ (mul_le_mul_of_nonneg_left k1 h0)
    have k3 : round32 (round32 (s1.sus * round32 (p1 - round32 (s1.att + s1.dec))) / s1.rel)
        ≤ round32 (round32 (s1.sus * round32 (p2 - round32 (s1.att + s1.dec))) / s1.rel) :=
      round32_mono _ _ (div_le_div_of_nonneg_right k2 hr)
    exact round32_mono _ _ (by linarith)

/-- C10 (amended). Per-phase monotonicity in binary32 arithmetic with smoothing
disabled, for two states sharing binary32 parameters `att, dec, rel ≥ 0` and
`0 ≤ sus ≤ 1`, and progress values `p1 ≤ p2` as `process` computes them.  If
both lie in the attack window (`p2 < att`) the first output is at most the
second.  If both lie in the decay window of the code
(`att ≤ p1`, `p2 < att ⊕ dec`) the first output is at least the second and both
lie between the binary32 value of `1 - (1 - sus)` and 1, hence in [0,1].  If
both notes are released and both values lie in the release window of the code
the first output is at least the second and both are at most `sus`; they are
also at least 0 when the phase lengths and the progress are integer sample
counts with `att + dec + rel ≤ 2^24`.  The three bounds by `2^100` keep every
sum away from overflow. -/
theorem process32_monotone_per_phase (s1 s2 : ADSR) (n1 n2 : Int)
    (hs1 : s1.enableSmoothing = false) (hs2 : s2.enableSmoothing = false)
    (hatt : s2.att = s1.att) (hdec : s2.dec = s1.dec) (hrel : s2.rel = s1.rel)
    (hsus : s2.sus = s1.sus)
    (fatt : round32 s1.att = s1.att) (fdec : round32 s1.dec = s1.dec)
    (fsus : round32 s1.sus = s1.sus)
    (ha : 0 ≤ s1.att) (hd : 0 ≤ s1.dec) (hr : 0 ≤ s1.rel)
    (h0 : 0 ≤ s1.sus) (h1 : s1.sus ≤ 1)
    (_hr1 : s1.att + s1.dec + s1.rel ≤ 2 ^ 100)
    (_hr2 : |s1.progress| + |(n1 : ℚ)| ≤ 2 ^ 100)
    (_hr3 : |s2.progress| + |(n2 : ℚ)| ≤ 2 ^ 100)
    (hle : round32 (s1.progress + round32 (n1 : ℚ))
      ≤ round32 (s2.progress + round32 (n2 : ℚ))) :
    (round32 (s2.progress + round32 (n2 : ℚ)) < s1.att →
        (process32 s1 n1).2 ≤ (process32 s2 n2).2) ∧
      (s1.att ≤ round32 (s1.progress + round32 (n1 : ℚ)) →
        round32 (s2.progress + round32 (n2 : ℚ)) < round32 (s1.att + s1.dec) →
        (process32 s2 n2).2 ≤ (process32 s1 n1).2 ∧
          round32 (1 - round32 (1 - s1.sus)) ≤ (process32 s2 n2).2 ∧
          (process32 s1 n1).2 ≤ 1 ∧ 0 ≤ (process32 s2 n2).2) ∧
      (s1.released = true → s2.released = true →
        round32 (s1.att + s1.dec) < round32 (s1.progress + round32 (n1 : ℚ)) →
        round32 (s2.progress + round32 (n2 : ℚ))
          < round32 (round32 (s1.att + s1.dec) + s1.rel) →
        (process32 s2 n2).2 ≤ (process32 s1 n1).2 ∧ (process32 s1 n1).2 ≤ s1.sus ∧
          (∀ A D R P : Int, s1.att = (A : ℚ) → s1.dec = (D : ℚ) → s1.rel = (R : ℚ) →
            s2.progress = (P : ℚ) → A + D + R ≤ 2 ^ 24 → 0 ≤ P → 0 ≤ n2 →
            0 ≤ (process32 s2 n2).2)) := by
  obtain ⟨m1, m2, m3⟩ := process32_monotone_aux s1 s2 n1 n2 hs1 hs2 hatt hdec hrel hsus
    fatt fdec fsus ha hd hr h0 h1 hle
  refine ⟨m1, m2, ?_⟩
  intro r1 r2 w1 w2
  obtain ⟨k1, k2⟩ := m3 r1 r2 w1 w2
  refine ⟨k1, k2, ?_⟩
  intro A D R P eA eD eR eP hsum hP0 hn0
  have qa : (0 : ℚ) ≤ (A : ℚ) := by rw [← eA]; exact ha
  have qd : (0 : ℚ) ≤ (D : ℚ) := by rw [← eD]; exact hd
  have qr : (0 : ℚ) ≤ (R : ℚ) := by rw [← eR]; exact hr
  exact process32_nonneg_int s2 n2 A D R P hs2 (by rw [hatt]; exact eA)
    (by rw [hdec]; exact eD) (by rw [hrel]; exact eR) eP (by rw [hsus]; exact fsus)
    (by rw [hsus]; exact h0) (by rw [hsus]; exact h1) (by exact_mod_cast qa)
    (by exact_mod_cast qd) (by exact_mod_cast qr) hsum hP0 hn0

/-- Witness of C10 (amended): the scenario generator in binary32 after
`trigger()`, evaluated at progress 100 and 200, both in the attack window. -/
theorem process32_monotone_per_phase_witness :
    round32 ((trigger demo32).progress + round32 ((100 : Int) : ℚ))
        ≤ round32 ((trigger demo32).progress + round32 ((200 : Int) : ℚ)) ∧
      round32 ((trigger demo32).progress + round32 ((200 : Int) : ℚ)) < (trigger demo32).att ∧
      (process32 (trigger demo32) 100).2 ≤ (process32 (trigger demo32) 200).2 :=
  ⟨by decide!, by decide!,
    (process32_monotone_per_phase (trigger demo32) (trigger demo32) 100 200
      (by decide!) (by decide!) rfl rfl rfl rfl (by decide!) (by decide!) (by decide!)
      (by decide!) (by decide!) (by decide!) (by decide!) (by decide!) (by decide!)
      (by decide!) (by decide!) (by decide!)).1
      (by decide!)⟩

/-! ## C19 -/

/-- C20 (counterexample). Binary32 arithmetic at 48 kHz, smoothing enabled, raw
phase output `x = 1` (sustain level 1, zero attack and decay, not released):
`process(0)` leaves both filter states `(7802605/2^23, 1)` and `(0.93f, 1)`
unchanged, so the smoothing step has more than one fixed point, and it returns
`g2 = 1`, not `x - a * eps`. -/
theorem smoothing32_fixed_points_not_unique :
    (run32 (construct32 48000 0 0 1 0) [Op32.trigger, Op32.setSmoothing true]).enableSmoothing
        = true ∧
      (run32 (construct32 48000 0 0 1 0) [Op32.trigger, Op32.setSmoothing true]).w ≠ 0 ∧
      (phase32 (run32 (construct32 48000 0 0 1 0) [Op32.trigger, Op32.setSmoothing true])
        (round32 ((run32 (construct32 48000 0 0 1 0)
          [Op32.trigger, Op32.setSmoothing true]).progress + round32 ((0 : Int) : ℚ)))).1 = 1 ∧
      (process32 (withFilter (run32 (construct32 48000 0 0 1 0)
        [Op32.trigger, Op32.setSmoothing true]) (7802605 / 8388608) 1) 0).1.g1
        = 7802605 / 8388608 ∧
      (process32 (withFilter (run32 (construct32 48000 0 0 1 0)
        [Op32.trigger, Op32.setSmoothing true]) (7802605 / 8388608) 1) 0).1.g2 = 1 ∧
      (process32 (withFilter (run32 (construct32 48000 0 0 1 0)
        [Op32.trigger, Op32.setSmoothing true]) (round32 (93 / 100)) 1) 0).1.g1
        = round32 (93 / 100) ∧
      (process32 (withFilter (run32 (construct32 48000 0 0 1 0)
        [Op32.trigger, Op32.setSmoothing true]) (round32 (93 / 100)) 1) 0).1.g2 = 1 ∧
      (7802605 / 8388608 : ℚ) ≠ round32 (93 / 100) ∧
      (process32 (withFilter (run32 (construct32 48000 0 0 1 0)
        [Op32.trigger, Op32.setSmoothing true]) (round32 (93 / 100)) 1) 0).2 = 1 ∧
      (1 : ℚ) ≠ 1 - (run32 (construct32 48000 0 0 1 0)
        [Op32.trigger, Op32.setSmoothing true]).a * round32 eps := by
  decide!

/-- C20 (amended). Evaluated exactly, the smoothing step with `w ≠ 0` and
`1 + a * b ≠ 0` has exactly one fixed point for every constant raw input `x`
and guard constant `e`: `g2 = (b * x + (1 - b) * e) / (1 + a * b)` and
`g1 = x - a * g2 - e`; when `b = 1 / (1 - a)` this is `g2 = x - a * e` and
`g1 = (1 - a) * (x - a * e - e)`.  In binary32 arithmetic the fixed point is
not unique; whenever `process` with smoothing enabled leaves `(g1, g2)`
unchanged it returns `g2`, and each of the two increments it computed is
absorbed by the rounding of the final addition: its magnitude is at most
`2^-24` times that of the sum plus `2^-150`. -/
theorem smoothing_fixed_point (w a b e x : ℚ) (hw : w ≠ 0) (hab : 1 + a * b ≠ 0) :
    (∀ g1 g2 : ℚ, filterStep w a b e x g1 g2 = (g1, g2) ↔
        (g2 = (b * x + (1 - b) * e) / (1 + a * b) ∧ g1 = x - a * g2 - e)) ∧
      (∃! p : ℚ × ℚ, filterStep w a b e x p.1 p.2 = p) ∧
      (a ≠ 1 → b = 1 / (1 - a) →
        (b * x + (1 - b) * e) / (1 + a * b) = x - a * e ∧
          x - a * (x - a * e) - e = (1 - a) * (x - a * e - e)) ∧
      (∀ (s : ADSR) (n : Int), s.enableSmoothing = true →
        (process32 s n).1.g1 = s.g1 → (process32 s n).1.g2 = s.g2 →
        (process32 s n).2 = s.g2 ∧
        |round32 (s.w * round32 (round32 (round32
              ((phase32 s (round32 (s.progress + round32 (n : ℚ)))).1 - s.g1)
              - round32 (s.a * s.g2)) - round32 eps))|
          ≤ |s.g1 + round32 (s.w * round32 (round32 (round32
              ((phase32 s (round32 (s.progress + round32 (n : ℚ)))).1 - s.g1)
              - round32 (s.a * s.g2)) - round32 eps))| / 2 ^ 24 + 1 / 2 ^ 150 ∧
        |round32 (s.w * round32 (round32 (round32 (s.b * s.g1) - s.g2) + round32 eps))|
          ≤ |s.g2 + round32 (s.w * round32 (round32 (round32 (s.b * s.g1) - s.g2)
              + round32 eps))| / 2 ^ 24 + 1 / 2 ^ 150) := by
  have key : ∀ g1 g2 : ℚ, filterStep w a b e x g1 g2 = (g1, g2) ↔
      (g2 = (b * x + (1 - b) * e) / (1 + a * b) ∧ g1 = x - a * g2 - e) := by
    intro g1 g2
    unfold filterStep
    simp only [Prod.mk.injEq]
    constructor
    · rintro ⟨h1, h2⟩
      have k1 : w * (x - g1 - a * g2 - e) = 0 := by linarith
      rw [h1] at h2
      have k2 : w * (b * g1 - g2 + e) = 0 := by linarith
      have m1 : x - g1 - a * g2 - e = 0 := by
        rcases mul_eq_zero.mp k1 with h | h
        · exact absurd h hw
        · exact h
      have m2 : b * g1 - g2 + e = 0 := by
        rcases mul_eq_zero.mp k2 with h | h
        · exact absurd h hw
        · exact h
      have hg1 : g1 = x - a * g2 - e := by linarith
      refine ⟨?_, hg1⟩
      rw [eq_div_iff hab]
      rw [hg1] at m2
      linarith
    · rintro ⟨h2, h1⟩
      have m2 : g2 * (1 + a * b) = b * x + (1 - b) * e := by
        rw [h2, div_mul_cancel₀ _ hab]
      have r1 : x - g1 - a * g2 - e = 0 := by rw [h1]; ring
      have r2 : b * g1 - g2 + e = 0 := by
        rw [h1]
        linarith
      constructor
      · rw [r1]; ring
      · rw [r1]
        have : g1 + w * 0 = g1 := by ring
        rw [this, r2]
        ring
  refine ⟨key, ?_, ?_, ?_⟩
  · refine ⟨(x - a * ((b * x + (1 - b) * e) / (1 + a * b)) - e,
      (b * x + (1 - b) * e) / (1 + a * b)), ?_, ?_⟩
    · exact (key _ _).mpr ⟨rfl, rfl⟩
    · rintro ⟨g1, g2⟩ h
      obtain ⟨h2, h1⟩ := (key g1 g2).mp h
      rw [h1, h2]
  · intro ha hb
    have h1a : 1 - a ≠ 0 := sub_ne_zero.mpr (Ne.symm ha)
    subst hb
    constructor
    · field_simp
      ring
    · ring
  · intro s n hsm h1 h2
    obtain ⟨p1, p2, p3⟩ := process32_smooth s n hsm
    have f1 : (filterStepR round32 s.w s.a s.b (round32 eps)
        (phase32 s (round32 (s.progress + round32 (n : ℚ)))).1 s.g1 s.g2).1 = s.g1 := by
      rw [← p1]; exact h1
    have f2 : (filterStepR round32 s.w s.a s.b (round32 eps)
        (phase32 s (round32 (s.progress + round32 (n : ℚ)))).1 s.g1 s.g2).2 = s.g2 := by
      rw [← p2]; exact h2
    refine ⟨by rw [p3]; exact h2, ?_, ?_⟩
    · exact absorbed_increment _ _ f1
    · have f2' := f2
      unfold filterStepR at f2'
      dsimp only at f2'
      have f1' := f1
      unfold filterStepR at f1'
      dsimp only at f1'
      rw [f1'] at f2'
      exact absorbed_increment _ _ f2'

/-- Witness of C20 (amended): the coefficients the constructor stores in binary32
at 48 kHz (`a = 0.07f`, `b = 1.0f / (1.0f - a)`), guard constant 0 and input 1;
the exact fixed point has `g2 = b / (1 + a * b)`, which is within `2^-24` of 1
and not 1. -/
theorem smoothing_fixed_point_witness :
    demo32.w ≠ 0 ∧ 1 + demo32.a * demo32.b ≠ 0 ∧
      demo32.a = 9395241 / 2 ^ 27 ∧ demo32.b = 9020009 / 2 ^ 23 ∧
      filterStep demo32.w demo32.a demo32.b 0 1
          (1 - demo32.a * ((demo32.b * 1 + (1 - demo32.b) * 0) / (1 + demo32.a * demo32.b)) - 0)
          ((demo32.b * 1 + (1 - demo32.b) * 0) / (1 + demo32.a * demo32.b))
        = (1 - demo32.a * ((demo32.b * 1 + (1 - demo32.b) * 0) / (1 + demo32.a * demo32.b)) - 0,
            (demo32.b * 1 + (1 - demo32.b) * 0) / (1 + demo32.a * demo32.b)) ∧
      |demo32.b / (1 + demo32.a * demo32.b) - 1| < 1 / 2 ^ 24 ∧
      demo32.b / (1 + demo32.a * demo32.b) ≠ 1 :=
  ⟨by decide!, by decide!, by decide!, by decide!,
    ((smoothing_fixed_point demo32.w demo32.a demo32.b 0 1 (by decide!) (by decide!)).1
      _ _).mpr ⟨rfl, rfl⟩,
    by decide!, by decide!⟩
